import Mathlib

/-!
# Master-worker n-queens over message passing (`mpi_nqueens.cpp`)

A shallow embedding of `master_solution_func`, `master_main`,
`worker_solution_func` and `worker_main`, and a verification of the
distribution protocol they implement.

## Modelling conventions

* Every rank owns its own copy of the globals `solutions` and `num`.
* The enumeration collaborator `nqueens_by_level(pos, start, target, f)` is
  represented by the sequence of vectors it passes to the callback `f`, in
  call order (`Engine`).  The protocol definitions take an arbitrary engine;
  `nqueens_by_level` below is the backtracking search itself.
* An executor is a coroutine: it runs until it blocks in the receive of
  line 163.  What it has sent to rank 0 and rank 0 has not yet received sits,
  in program order, in its `out` queue (messages of one sender are matched in
  the order they were sent).
* `MPI_ANY_SOURCE` is resolved by an oracle `sched`: the `i`-th wildcard
  receive is matched with the `sched i`-th rank (modulo their number) among
  the ranks that have a message outstanding.  A run is `none` exactly when
  rank 0 reaches a receive that no message can match, or a send whose
  destination is not in the matching receive, or when the drain loop has not
  left after `P + 1` evaluations of its condition.
* `int`/`unsigned` values are natural numbers; vector sizes are assumed to
  fit the `int` of the count message.  The `int` value `-1` of the
  termination message is the word `2^32 - 1` on the wire.
* Fields and events marked *ghost* record history and are never read by the
  embedded code.
-/

namespace MpiNQueens

/-! ## Transport data -/

/-- One point-to-point message: its tag and the words it carries. -/
structure Msg where
  tag : Nat
  data : List Nat
deriving DecidableEq

/-- The contents of a zero-initialised vector of `count` words after a
message carrying `data` has been received into it. -/
def recv_buf (count : Nat) (data : List Nat) : List Nat :=
  (data ++ List.replicate count 0).take count

/-- The enumeration collaborator: `enum pos start target` is the sequence of
vectors handed to the callback during `nqueens_by_level(pos, start, target, f)`. -/
abbrev Engine := List Nat → Nat → Nat → List (List Nat)

/-! ## The enumeration engine -/

/-- Modelled from the spec: the safety check of the enumeration engine
(`nqueens.h`/`nqueens.cpp` are not part of the sources).  A queen may go to
column `col` of row `level` when no queen of rows `0..level-1` shares its
column or one of its diagonals. -/
def is_safe (pos : List Nat) (level col : Nat) : Bool :=
  (List.range level).all fun i =>
    decide (pos.getD i 0 ≠ col ∧ pos.getD i 0 + (level - i) ≠ col ∧ col + (level - i) ≠ pos.getD i 0)

/-- Modelled from the spec: the recursion of the enumeration engine, `d` rows
still to fill starting at row `level` on a board of `n` columns.  The
callback is invoked once for every valid placement of the rows, in
lexicographic order. -/
def nqueens_go (n : Nat) : Nat → List Nat → Nat → List (List Nat)
  | 0, pos, _ => [pos]
  | d + 1, pos, level =>
    (List.range n).flatMap fun col =>
      if is_safe pos level col then nqueens_go n d (pos.set level col) (level + 1) else []

/-- Modelled from the spec: `nqueens_by_level(pos, start, target, f)` of the
absent `nqueens.h`, with the contract of the spec's section 6: the callback is
invoked exactly once per valid placement of queens on rows
`start..target-1` consistent with rows `0..start-1` of `pos`. -/
def nqueens_by_level : Engine := fun pos start target =>
  nqueens_go pos.length (target - start) pos start

/-! ## Executors -/

/-- The state of one executor process. -/
structure Worker where
  /-- local `n` of `worker_main` -/
  n : Nat
  /-- local `k` of `worker_main` -/
  k : Nat
  /-- local `first` of `worker_main` -/
  first : Bool
  /-- this rank's global `solutions` -/
  solutions : List Nat
  /-- `worker_main` has returned -/
  exited : Bool
  /-- messages sent to rank 0 that rank 0 has not yet received -/
  out : List Msg
  /-- ghost: the arguments of all `worker_solution_func` calls so far -/
  found : List (List Nat)
  /-- ghost: the payloads of all repeat requests so far -/
  flushed : List (List Nat)
  /-- ghost: the messages received from rank 0 so far -/
  got : List Msg
deriving DecidableEq

/-- Lines 121-126: append every entry of `solution` to `solutions`. -/
def worker_solution_func (solution : List Nat) (w : Worker) : Worker :=
  { w with solutions := w.solutions ++ solution, found := w.found ++ [solution] }

/-- Lines 151-160: the outbound request at the head of the loop body. -/
def worker_request (w : Worker) : Worker :=
  if w.first then
    { w with out := w.out ++ [⟨0, [0]⟩], first := false }
  else
    let s := w.solutions.length
    { w with
      out := w.out ++ [⟨1, [s]⟩, ⟨1, w.solutions.take s⟩]
      flushed := w.flushed ++ [w.solutions.take s]
      solutions := [] }

/-- Lines 161-170 and the head of the next pass: what an executor blocked in
the receive of line 163 does when message `m` arrives, up to its next
receive or its return. -/
def worker_deliver (enum : Engine) (m : Msg) (w : Worker) : Worker :=
  let solution := recv_buf w.n m.data
  let w := { w with got := w.got ++ [m] }
  if m.tag = 2 then
    { w with out := w.out ++ [⟨2, [1]⟩], exited := true }
  else
    worker_request ((enum solution w.k w.n).foldl (fun w s => worker_solution_func s w) w)

/-- Lines 140-154: an executor from the broadcast of `(n, k)` to its first
receive.  (Its copy of the global `num` is written at line 144 and never
read.) -/
def worker_main (n k : Nat) : Worker :=
  worker_request
    { n := n, k := k, first := true, solutions := [], exited := false, out := [],
      found := [], flushed := [], got := [] }

/-! ## The coordinator -/

/-- What rank 0 does, in order.  `buf` is rank 0's `solutions` at the call
(ghost). -/
inductive Event where
  /-- a completed `MPI_Recv`; `any` tells a wildcard receive -/
  | recv (any : Bool) (source tag : Nat) (data buf : List Nat)
  /-- a completed `MPI_Send` -/
  | send (dest tag : Nat) (data buf : List Nat)
  /-- an evaluation of the drain loop's condition (line 88) -/
  | test (running : Int)
deriving DecidableEq

/-- The state of a run: rank 0's globals and the executors (rank `r + 1` at
index `r`). -/
structure World where
  /-- rank 0's global `solutions` -/
  solutions : List Nat
  /-- rank 0's global `num` -/
  num : Nat
  /-- the executors -/
  workers : List Worker
  /-- ghost: the number of wildcard receives completed -/
  anys : Nat
  /-- ghost: rank 0's calls so far -/
  trace : List Event
deriving DecidableEq

/-- The messages of rank `rank` waiting to be received by rank 0. -/
def World.outbox (W : World) (rank : Nat) : List Msg :=
  match rank with
  | 0 => []
  | r + 1 =>
    match W.workers[r]? with
    | some w => w.out
    | none => []

/-- The ranks that have a message outstanding for rank 0. -/
def World.pending (W : World) : List Nat :=
  (List.range' 1 W.workers.length).filter fun r => !(W.outbox r).isEmpty

/-- `MPI_Recv` by rank 0 with an explicit source: the oldest outstanding
message of that rank, `none` when it has none. -/
def MPI_Recv (any : Bool) (source : Nat) (W : World) : Option (Msg × World) :=
  match source with
  | 0 => none
  | r + 1 =>
    match W.workers[r]? with
    | none => none
    | some w =>
      match w.out with
      | [] => none
      | m :: rest =>
        some (m, { W with
          workers := W.workers.set r { w with out := rest }
          trace := W.trace ++ [Event.recv any (r + 1) m.tag m.data W.solutions] })

/-- `MPI_Recv` by rank 0 with `MPI_ANY_SOURCE`: the oracle selects one of the
ranks with an outstanding message; returns `stat.MPI_SOURCE` with the
message. -/
def MPI_Recv_any (sched : Nat → Nat) (W : World) : Option (Nat × Msg × World) :=
  match W.pending with
  | [] => none
  | r :: rs =>
    let source := (r :: rs).getD (sched W.anys % (r :: rs).length) r
    match MPI_Recv true source { W with anys := W.anys + 1 } with
    | none => none
    | some (m, W1) => some (source, m, W1)

/-- `MPI_Send` by rank 0: completes when the destination is an executor
blocked in its receive, which then runs on to its next receive. -/
def MPI_Send (enum : Engine) (dest tag : Nat) (data : List Nat) (W : World) : Option World :=
  match dest with
  | 0 => none
  | r + 1 =>
    match W.workers[r]? with
    | none => none
    | some w =>
      if w.exited = false ∧ w.out = [] then
        some { W with
          workers := W.workers.set r (worker_deliver enum ⟨tag, data⟩ w)
          trace := W.trace ++ [Event.send (r + 1) tag data W.solutions] }
      else none

/-- Lines 37-54. -/
def master_solution_func (enum : Engine) (sched : Nat → Nat) (solution : List Nat)
    (W : World) : Option World :=
  match MPI_Recv_any sched W with
  | none => none
  | some (source, m, W1) =>
    let s := m.data.headD 0
    let tag1 := m.tag
    if tag1 = 1 then
      match MPI_Recv false source W1 with
      | none => none
      | some (p, W2) =>
        let done := recv_buf s p.data
        MPI_Send enum source 0 (solution.take W2.num)
          { W2 with solutions := W2.solutions ++ done }
    else
      MPI_Send enum source 0 (solution.take W1.num) W1

/-- Line 81: the engine calls `master_solution_func` on each placement it
yields, in order. -/
def dispatch (enum : Engine) (sched : Nat → Nat) : List (List Nat) → World → Option World
  | [], W => some W
  | solution :: rest, W =>
    match master_solution_func enum sched solution W with
    | none => none
    | some W1 => dispatch enum sched rest W1

/-- The word carried by the termination message (`int pointer = -1`). -/
def pointer : Nat := 2 ^ 32 - 1

/-- Lines 89-105: one pass of the drain loop's body. -/
def drain_body (enum : Engine) (sched : Nat → Nat) (W : World) : Option World :=
  match MPI_Recv_any sched W with
  | none => none
  | some (source, m, W1) =>
    let s := m.data.headD 0
    let tag := m.tag
    let W3 : Option World :=
      if tag = 1 then
        match MPI_Recv false source W1 with
        | none => none
        | some (p, W2) =>
          let done := recv_buf s p.data
          some { W2 with solutions := W2.solutions ++ done }
      else some W1
    match W3 with
    | none => none
    | some W3 =>
      match MPI_Send enum source 2 [pointer] W3 with
      | none => none
      | some W4 =>
        match MPI_Recv false source W4 with
        | none => none
        | some (_, W5) => some W5

/-- Lines 88-106: the drain loop, `fuel` bounding the number of times its
condition is evaluated. -/
def drain (enum : Engine) (sched : Nat → Nat) : Nat → Int → World → Option World
  | 0, _, _ => none
  | fuel + 1, runningProcessors, W =>
    let W := { W with trace := W.trace ++ [Event.test runningProcessors] }
    if runningProcessors > 0 then
      match drain_body enum sched W with
      | none => none
      | some W1 => drain enum sched fuel (runningProcessors - 1) W1
    else some W

/-- Lines 73-75 and 142-144: the broadcast of `(n, k)`; `P` is the size of
the communicator.  Every executor runs up to its first receive. -/
def MPI_Bcast (n k P : Nat) : World :=
  { solutions := [], num := n, workers := List.replicate (P - 1) (worker_main n k),
    anys := 0, trace := [] }

/-- Lines 71-108 run against `P - 1` executors: the final state of the whole
system. -/
def master_run (enum : Engine) (sched : Nat → Nat) (n k P : Nat) : Option World :=
  let W := MPI_Bcast n k P
  let pos := List.replicate n 0
  match dispatch enum sched (enum pos 0 k) W with
  | none => none
  | some W1 => drain enum sched (P + 1) ((P : Int) - 1) W1

/-- Lines 71-108: the vector `master_main(n, k)` returns. -/
def master_main (enum : Engine) (sched : Nat → Nat) (n k P : Nat) : Option (List Nat) :=
  (master_run enum sched n k P).map World.solutions

/-! ## Reading the result buffer -/

/-- Cut `l` into consecutive blocks of `n`, `fuel` bounding their number. -/
def blocksAux (n : Nat) : Nat → List Nat → List (List Nat)
  | 0, _ => []
  | fuel + 1, l => if l = [] then [] else l.take n :: blocksAux n fuel (l.drop n)

/-- The consecutive blocks of `n` values of a flat buffer. -/
def blocks (n : Nat) (l : List Nat) : List (List Nat) :=
  blocksAux n l.length l

/-! ## Vocabulary of the proofs -/

/-- The payload an executor has outstanding for rank 0. -/
def Worker.inflight (w : Worker) : List Nat :=
  ((w.out.drop 1).map Msg.data).flatten

/-- An executor as rank 0 finds it between two services: returned, or blocked
in its receive with one request outstanding. -/
structure Parked (n k : Nat) (w : Worker) : Prop where
  hn : w.n = n
  hk : w.k = k
  hfirst : w.first = false
  hsols : w.solutions = []
  hdone : w.exited = true → w.out = []
  hlive : w.exited = false →
    w.out = [⟨0, [0]⟩] ∨ w.out = [⟨1, [w.inflight.length]⟩, ⟨1, w.inflight⟩]
  hflush : w.flushed.flatten = w.found.flatten
  hgot : (w.got.map Msg.tag).count 2 = if w.exited then 1 else 0

/-- The state of a run between two services. -/
structure Shape (n k : Nat) (W : World) : Prop where
  hnum : W.num = n
  hpark : ∀ w ∈ W.workers, Parked n k w

/-- The receives by which rank 0 takes the request of executor `w`. -/
def request_events (source : Nat) (w : Worker) (buf : List Nat) : List Event :=
  match w.out with
  | [] => []
  | m :: rest =>
    Event.recv true source m.tag m.data buf ::
      rest.map fun p => Event.recv false source p.tag p.data buf

/-- The state after rank 0 has taken the request of executor `w` (rank
`i + 1`) and replied with `data` under `tag`. -/
def serve (enum : Engine) (i : Nat) (w : Worker) (tag : Nat) (data : List Nat)
    (W : World) : World :=
  { solutions := W.solutions ++ w.inflight
    num := W.num
    workers := W.workers.set i (worker_deliver enum ⟨tag, data⟩ { w with out := [] })
    anys := W.anys + 1
    trace := W.trace ++ request_events (i + 1) w W.solutions ++
      [Event.send (i + 1) tag data (W.solutions ++ w.inflight)] }

/-- The state after the termination handshake with executor `w` (rank
`i + 1`). -/
def retire (enum : Engine) (i : Nat) (w : Worker) (W : World) : World :=
  { solutions := W.solutions ++ w.inflight
    num := W.num
    workers := W.workers.set i
      { worker_deliver enum ⟨2, [pointer]⟩ { w with out := [] } with out := [] }
    anys := W.anys + 1
    trace := W.trace ++ request_events (i + 1) w W.solutions ++
      [Event.send (i + 1) 2 [pointer] (W.solutions ++ w.inflight),
       Event.recv false (i + 1) 2 [1] (W.solutions ++ w.inflight)] }

/-- `Dispatched enum n k ys W W1`: from `W`, rank 0 hands out the placements
`ys`, one service each, and reaches `W1`. -/
inductive Dispatched (enum : Engine) (n k : Nat) : List (List Nat) → World → World → Prop
  | done (W : World) : Dispatched enum n k [] W W
  | step {W W1 : World} {i : Nat} {w : Worker} {solution : List Nat} {rest : List (List Nat)}
      (hshape : Shape n k W) (hw : W.workers[i]? = some w) (hex : w.exited = false)
      (hrest : Dispatched enum n k rest (serve enum i w 0 (solution.take n) W) W1) :
      Dispatched enum n k (solution :: rest) W W1

/-- `Drained enum n k c W W1`: from `W` with the counter at `c`, the drain
loop runs to its exit and reaches `W1`. -/
inductive Drained (enum : Engine) (n k : Nat) : Nat → World → World → Prop
  | done (W : World) (hall : ∀ w ∈ W.workers, w.exited = true) :
      Drained enum n k 0 W { W with trace := W.trace ++ [Event.test 0] }
  | step {W W1 : World} {c i : Nat} {w : Worker}
      (hshape : Shape n k W) (hw : W.workers[i]? = some w) (hex : w.exited = false)
      (hrest : Drained enum n k c
        (retire enum i w { W with trace := W.trace ++ [Event.test ((c : Int) + 1)] }) W1) :
      Drained enum n k (c + 1) W W1

/-- The number of executors still in their loop. -/
def World.live (W : World) : Nat :=
  W.workers.countP fun w => !w.exited

/-- What an event of rank 0 is in the protocol. -/
inductive Act where
  /-- a request taken by a wildcard receive -/
  | req (source : Nat)
  /-- a reply: work (tag 0) or termination (tag 2) -/
  | reply (dest tag : Nat) (data : List Nat)
  /-- a termination acknowledgement taken -/
  | ack (source : Nat)
  /-- an evaluation of the drain loop's condition -/
  | test (running : Int)
deriving DecidableEq

/-- The protocol act of an event; the receive of a payload has none. -/
def Event.act : Event → Option Act
  | .recv true source _ _ _ => some (.req source)
  | .recv false source tag _ _ => if tag = 2 then some (.ack source) else none
  | .send dest tag data _ => some (.reply dest tag data)
  | .test running => some (.test running)

/-- The protocol acts of a trace, in order. -/
def skeleton (tr : List Event) : List Act :=
  tr.filterMap Event.act

/-- The acts of a dispatch phase in which the request taken in the `j`-th
callback invocation came from rank `reqs[j]` and the placement was `ys[j]`. -/
def dispatch_acts : List Nat → List (List Nat) → List Act
  | s :: ss, y :: ys => .req s :: .reply s 0 y :: dispatch_acts ss ys
  | _, _ => []

/-- The acts of a drain loop whose passes serve the ranks `srcs` in turn: the
counter is tested, a request is taken, the requester is sent the termination
message and its acknowledgement is taken; the loop is left at zero. -/
def drain_acts : List Nat → List Act
  | [] => [.test 0]
  | s :: ss =>
    .test ((ss.length : Int) + 1) :: .req s :: .reply s 2 [pointer] :: .ack s :: drain_acts ss

/-- The ranks (counted from `off`) of the executors still in their loop. -/
def live_ranks : Nat → List Worker → List Nat
  | _, [] => []
  | off, w :: ws => if w.exited then live_ranks (off + 1) ws else off :: live_ranks (off + 1) ws

/-- The engine hands the callback vectors of the size of `pos`. -/
def Sized (enum : Engine) : Prop :=
  ∀ pos start target, ∀ v ∈ enum pos start target, v.length = pos.length

/-- The data of a work message. -/
def Act.work : Act → Option (List Nat)
  | .reply _ 0 data => some data
  | _ => none

/-- The source of an acknowledgement. -/
def Act.acked : Act → Option Nat
  | .ack source => some source
  | _ => none

/-- The value of the counter at a test. -/
def Act.tested : Act → Option Int
  | .test running => some running
  | _ => none

/-- The destination of a termination message. -/
def Act.terminated : Act → Option Nat
  | .reply dest 2 _ => some dest
  | _ => none

/-- The flat buffer `l` is a concatenation of vectors of `n` values. -/
def Chunked (n : Nat) (l : List Nat) : Prop :=
  ∃ L : List (List Nat), l = L.flatten ∧ ∀ v ∈ L, v.length = n

/-- The multiset sum of `f` over the executors. -/
def over (f : Worker → Multiset (List Nat)) (ws : List Worker) : Multiset (List Nat) :=
  (ws.map f).sum

/-- Rank 0's `solutions` at an event (empty for a loop test). -/
def Event.buf : Event → List Nat
  | .recv _ _ _ _ buf => buf
  | .send _ _ _ buf => buf
  | .test _ => []

/-- Every vector found by an executor is, whole, in rank 0's buffer or in the
payload its finder has outstanding. -/
structure Acct (n : Nat) (W : World) : Prop where
  hbuf : Chunked n W.solutions
  hinf : ∀ w ∈ W.workers, Chunked n w.inflight
  hfound : ∀ w ∈ W.workers, ∀ v ∈ w.found, v.length = n
  hsum : (↑(blocks n W.solutions) : Multiset (List Nat)) +
      over (fun w => ↑(blocks n w.inflight)) W.workers = over (fun w => ↑w.found) W.workers
  hsnap : ∀ e ∈ W.trace, Chunked n e.buf ∧ ∀ b ∈ blocks n e.buf, b ∈ blocks n W.solutions

/-- The vectors all executors have found so far. -/
def World.found (W : World) : Multiset (List Nat) :=
  over (fun w => ↑w.found) W.workers

/-- A state reached in a run with `n = 4`, `k = 1` and one executor: the
executor has been handed the placement `(1)` and has its result outstanding. -/
def sample_world : World :=
  (master_solution_func nqueens_by_level (fun _ => 0) [1, 0, 0, 0] (MPI_Bcast 4 1 2)).getD
    (MPI_Bcast 4 1 2)

/-- The engine's contract in the words of the spec (section 6): `v` is a
valid placement of queens on the rows `start..target-1` consistent with the
rows of `pos` already fixed: one queen in each of these rows, in a column
below `n`, sharing no column and no diagonal with the queen of an earlier
row; all other rows are those of `pos`. -/
def Completes (n : Nat) (pos : List Nat) (start target : Nat) (v : List Nat) : Prop :=
  v.length = pos.length ∧
  (∀ i, i < start ∨ target ≤ i → v[i]? = pos[i]?) ∧
  ∀ j, start ≤ j → j < target → v.getD j 0 < n ∧
    ∀ i < j, v.getD i 0 ≠ v.getD j 0 ∧ v.getD i 0 + (j - i) ≠ v.getD j 0 ∧
      v.getD j 0 + (j - i) ≠ v.getD i 0

/-! # Proofs -/

/-! ## Executors between two services -/

theorem foldl_worker_solution_func (ys : List (List Nat)) (w : Worker) :
    ys.foldl (fun w s => worker_solution_func s w) w =
      { w with solutions := w.solutions ++ ys.flatten, found := w.found ++ ys } := by
  induction ys generalizing w with
  | nil => simp
  | cons y ys ih =>
    rw [List.foldl_cons, ih]
    simp [worker_solution_func]

theorem parked_worker_main (n k : Nat) : Parked n k (worker_main n k) := by
  constructor <;> simp [worker_main, worker_request, Worker.inflight]

/-- The executor `w`, its request consumed, after a work message. -/
theorem worker_deliver_work (enum : Engine) {n k : Nat} {w : Worker} (hw : Parked n k w)
    (tag : Nat) (htag : tag ≠ 2) (data : List Nat) :
    worker_deliver enum ⟨tag, data⟩ { w with out := [] } =
      { w with
        out := [⟨1, [(enum (recv_buf n data) k n).flatten.length]⟩,
                ⟨1, (enum (recv_buf n data) k n).flatten⟩]
        found := w.found ++ enum (recv_buf n data) k n
        flushed := w.flushed ++ [(enum (recv_buf n data) k n).flatten]
        got := w.got ++ [⟨tag, data⟩] } := by
  obtain ⟨hn, hk, hfirst, hsols, -, -, -, -⟩ := hw
  cases w
  simp only at hn hk hfirst hsols
  subst hn hk hfirst hsols
  simp [worker_deliver, htag, foldl_worker_solution_func, worker_request]

theorem worker_deliver_term (enum : Engine) (w : Worker) (data : List Nat) :
    worker_deliver enum ⟨2, data⟩ { w with out := [] } =
      { w with out := [⟨2, [1]⟩], exited := true, got := w.got ++ [⟨2, data⟩] } := by
  simp [worker_deliver]

theorem parked_after_work (enum : Engine) {n k : Nat} {w : Worker} (hw : Parked n k w)
    (hex : w.exited = false) (tag : Nat) (htag : tag ≠ 2) (data : List Nat) :
    Parked n k (worker_deliver enum ⟨tag, data⟩ { w with out := [] }) := by
  rw [worker_deliver_work enum hw tag htag]
  obtain ⟨hn, hk, hfirst, hsols, hdone, hlive, hflush, hgot⟩ := hw
  have h2 : (2 : Nat) ≠ tag := fun h => htag h.symm
  constructor <;> simp_all [Worker.inflight, List.count_singleton]

theorem parked_after_term (enum : Engine) {n k : Nat} {w : Worker} (hw : Parked n k w)
    (hex : w.exited = false) (data : List Nat) :
    Parked n k { worker_deliver enum ⟨2, data⟩ { w with out := [] } with out := [] } := by
  rw [worker_deliver_term]
  obtain ⟨hn, hk, hfirst, hsols, hdone, hlive, hflush, hgot⟩ := hw
  constructor <;> simp_all [Worker.inflight]

/-! ## Services -/

theorem mem_pending {W : World} {r : Nat} :
    r ∈ W.pending ↔ ∃ i w, r = i + 1 ∧ W.workers[i]? = some w ∧ w.out ≠ [] := by
  unfold World.pending
  rw [List.mem_filter, List.mem_range']
  constructor
  · rintro ⟨⟨i, hi, rfl⟩, hne⟩
    have hlt : i < W.workers.length := hi
    refine ⟨i, W.workers[i], by omega, List.getElem?_eq_getElem hlt, ?_⟩
    have : W.outbox (1 + 1 * i) = W.workers[i].out := by
      have h1 : 1 + 1 * i = i + 1 := by omega
      rw [h1]
      simp [World.outbox, List.getElem?_eq_getElem hlt]
    rw [this] at hne
    intro h
    simp [h] at hne
  · rintro ⟨i, w, rfl, hw, hne⟩
    have hlt : i < W.workers.length := by
      by_contra h
      rw [List.getElem?_eq_none (by omega)] at hw
      cases hw
    refine ⟨⟨i, hlt, by omega⟩, ?_⟩
    simp only [World.outbox, hw]
    cases h : w.out with
    | nil => exact absurd h hne
    | cons _ _ => rfl

theorem MPI_Recv_any_none {sched : Nat → Nat} {W : World} (h : W.pending = []) :
    MPI_Recv_any sched W = none := by
  simp [MPI_Recv_any, h]

theorem MPI_Recv_any_some (sched : Nat → Nat) {W : World} (h : W.pending ≠ []) :
    ∃ i w m rest, W.workers[i]? = some w ∧ w.out = m :: rest ∧
      MPI_Recv_any sched W = some (i + 1, m,
        { W with
          workers := W.workers.set i { w with out := rest }
          anys := W.anys + 1
          trace := W.trace ++ [Event.recv true (i + 1) m.tag m.data W.solutions] }) := by
  unfold MPI_Recv_any
  cases hp : W.pending with
  | nil => exact absurd hp h
  | cons r rs =>
    simp only
    have hmem : (r :: rs).getD (sched W.anys % (r :: rs).length) r ∈ W.pending := by
      rw [hp]
      have hlt : sched W.anys % (r :: rs).length < (r :: rs).length :=
        Nat.mod_lt _ (by simp)
      rw [List.getD_eq_getElem _ _ hlt]
      exact List.getElem_mem _
    obtain ⟨i, w, hi, hw, hne⟩ := mem_pending.mp hmem
    rw [hi]
    cases hout : w.out with
    | nil => exact absurd hout hne
    | cons m rest =>
      refine ⟨i, w, m, rest, hw, hout, ?_⟩
      simp [MPI_Recv, hw, hout]

theorem recv_buf_self (l : List Nat) : recv_buf l.length l = l := by
  simp [recv_buf, List.take_append_eq_append_take]

theorem lt_of_getElem?_some {α : Type} {l : List α} {i : Nat} {a : α} (h : l[i]? = some a) :
    i < l.length := by
  by_contra hlt
  rw [List.getElem?_eq_none (by omega)] at h
  cases h

theorem mem_of_getElem?_some {α : Type} {l : List α} {i : Nat} {a : α} (h : l[i]? = some a) :
    a ∈ l := by
  have hlt := lt_of_getElem?_some h
  rw [List.getElem?_eq_getElem hlt] at h
  cases h
  exact List.getElem_mem _

theorem live_of_out {n k : Nat} {w : Worker} (hw : Parked n k w) (h : w.out ≠ []) :
    w.exited = false := by
  cases hex : w.exited with
  | false => rfl
  | true => exact absurd (hw.hdone hex) h

/-- What the reply of rank 0 does to the system when the request of the
executor (rank `i + 1`) has been taken. -/
theorem MPI_Send_taken (enum : Engine) (W : World) (i : Nat) (w : Worker)
    (hi : i < W.workers.length) (hex : w.exited = false) (tag : Nat) (data : List Nat)
    (ws : List Worker) (hws : ws = W.workers.set i { w with out := [] }) :
    MPI_Send enum (i + 1) tag data { W with workers := ws } =
      some { W with
        workers := W.workers.set i (worker_deliver enum ⟨tag, data⟩ { w with out := [] })
        trace := W.trace ++ [Event.send (i + 1) tag data W.solutions] } := by
  subst hws
  simp [MPI_Send, List.getElem?_set, hi, hex]

theorem master_solution_func_at (enum : Engine) (sched : Nat → Nat) (solution : List Nat)
    {n k : Nat} {W : World} (hW : Shape n k W) {i : Nat} {w : Worker} {m : Msg}
    {rest : List Msg} (hw : W.workers[i]? = some w) (hout : w.out = m :: rest)
    (hany : MPI_Recv_any sched W = some (i + 1, m,
        { W with
          workers := W.workers.set i { w with out := rest }
          anys := W.anys + 1
          trace := W.trace ++ [Event.recv true (i + 1) m.tag m.data W.solutions] })) :
    master_solution_func enum sched solution W =
      some (serve enum i w 0 (solution.take n) W) := by
  have hi := lt_of_getElem?_some hw
  have hpk := hW.hpark w (mem_of_getElem?_some hw)
  have hex := live_of_out hpk (by simp [hout])
  have hnum := hW.hnum
  unfold master_solution_func
  rw [hany]
  rcases hpk.hlive hex with h0 | h1
  · rw [hout] at h0
    injection h0 with hm hrest
    subst hm hrest
    have hin : w.inflight = [] := by simp [Worker.inflight, hout]
    simp only [Nat.zero_ne_one, if_false]
    have := MPI_Send_taken enum
      { W with anys := W.anys + 1
               trace := W.trace ++ [Event.recv true (i + 1) 0 [0] W.solutions] }
      i w hi hex 0 (solution.take W.num) _ rfl
    simp only at this
    rw [this]
    simp [serve, request_events, hout, hin, hnum]
  · rw [hout] at h1
    injection h1 with hm hrest
    subst hm hrest
    have hin : w.inflight.length = w.inflight.length := rfl
    simp only [if_true]
    have hrecv : MPI_Recv false (i + 1)
        { W with workers := W.workers.set i { w with out := [⟨1, w.inflight⟩] }
                 anys := W.anys + 1
                 trace := W.trace ++
                  [Event.recv true (i + 1) 1 [w.inflight.length] W.solutions] } =
        some (⟨1, w.inflight⟩,
          { W with workers := W.workers.set i { w with out := [] }
                   anys := W.anys + 1
                   trace := W.trace ++
                    [Event.recv true (i + 1) 1 [w.inflight.length] W.solutions] ++
                    [Event.recv false (i + 1) 1 w.inflight W.solutions] }) := by
      simp [MPI_Recv, List.getElem?_set, hi]
    rw [hrecv]
    simp only [List.headD_cons, recv_buf_self]
    have := MPI_Send_taken enum
      { W with solutions := W.solutions ++ w.inflight
               anys := W.anys + 1
               trace := W.trace ++
                    [Event.recv true (i + 1) 1 [w.inflight.length] W.solutions] ++
                    [Event.recv false (i + 1) 1 w.inflight W.solutions] }
      i w hi hex 0 (solution.take W.num) _ rfl
    simp only at this
    rw [this]
    simp [serve, request_events, hout, hnum]

theorem master_solution_func_eq (enum : Engine) (sched : Nat → Nat) (solution : List Nat)
    {n k : Nat} {W : World} (hW : Shape n k W) (hp : W.pending ≠ []) :
    ∃ i w, W.workers[i]? = some w ∧ w.exited = false ∧
      master_solution_func enum sched solution W =
        some (serve enum i w 0 (solution.take n) W) := by
  obtain ⟨i, w, m, rest, hw, hout, hany⟩ := MPI_Recv_any_some sched hp
  have hpk := hW.hpark w (mem_of_getElem?_some hw)
  have hex := live_of_out hpk (by simp [hout])
  exact ⟨i, w, hw, hex, master_solution_func_at enum sched solution hW hw hout hany⟩

theorem MPI_Recv_ack (enum : Engine) (W : World) (i : Nat) (w : Worker)
    (hi : i < W.workers.length) (data : List Nat)
    (ws : List Worker)
    (hws : ws = W.workers.set i (worker_deliver enum ⟨2, data⟩ { w with out := [] })) :
    MPI_Recv false (i + 1) { W with workers := ws } =
      some (⟨2, [1]⟩, { W with
        workers := W.workers.set i
          { worker_deliver enum ⟨2, data⟩ { w with out := [] } with out := [] }
        trace := W.trace ++ [Event.recv false (i + 1) 2 [1] W.solutions] }) := by
  subst hws
  simp [MPI_Recv, List.getElem?_set, hi, worker_deliver_term]

theorem drain_body_at (enum : Engine) (sched : Nat → Nat)
    {n k : Nat} {W : World} (hW : Shape n k W) {i : Nat} {w : Worker} {m : Msg}
    {rest : List Msg} (hw : W.workers[i]? = some w) (hout : w.out = m :: rest)
    (hany : MPI_Recv_any sched W = some (i + 1, m,
        { W with
          workers := W.workers.set i { w with out := rest }
          anys := W.anys + 1
          trace := W.trace ++ [Event.recv true (i + 1) m.tag m.data W.solutions] })) :
    drain_body enum sched W = some (retire enum i w W) := by
  have hi := lt_of_getElem?_some hw
  have hpk := hW.hpark w (mem_of_getElem?_some hw)
  have hex := live_of_out hpk (by simp [hout])
  unfold drain_body
  rw [hany]
  rcases hpk.hlive hex with h0 | h1
  · rw [hout] at h0
    injection h0 with hm hrest
    subst hm hrest
    have hin : w.inflight = [] := by simp [Worker.inflight, hout]
    simp only [Nat.zero_ne_one, if_false]
    have hs := MPI_Send_taken enum
      { W with anys := W.anys + 1
               trace := W.trace ++ [Event.recv true (i + 1) 0 [0] W.solutions] }
      i w hi hex 2 [pointer] _ rfl
    simp only at hs
    rw [hs]
    simp only
    have hr := MPI_Recv_ack enum
      { W with anys := W.anys + 1
               trace := W.trace ++ [Event.recv true (i + 1) 0 [0] W.solutions] ++
                  [Event.send (i + 1) 2 [pointer] W.solutions] }
      i w hi [pointer] _ rfl
    simp only at hr
    rw [hr]
    simp [retire, request_events, hout, hin]
  · rw [hout] at h1
    injection h1 with hm hrest
    subst hm hrest
    simp only [if_true]
    have hrecv : MPI_Recv false (i + 1)
        { W with workers := W.workers.set i { w with out := [⟨1, w.inflight⟩] }
                 anys := W.anys + 1
                 trace := W.trace ++
                  [Event.recv true (i + 1) 1 [w.inflight.length] W.solutions] } =
        some (⟨1, w.inflight⟩,
          { W with workers := W.workers.set i { w with out := [] }
                   anys := W.anys + 1
                   trace := W.trace ++
                    [Event.recv true (i + 1) 1 [w.inflight.length] W.solutions] ++
                    [Event.recv false (i + 1) 1 w.inflight W.solutions] }) := by
      simp [MPI_Recv, List.getElem?_set, hi]
    rw [hrecv]
    simp only [List.headD_cons, recv_buf_self]
    have hs := MPI_Send_taken enum
      { W with solutions := W.solutions ++ w.inflight
               anys := W.anys + 1
               trace := W.trace ++
                    [Event.recv true (i + 1) 1 [w.inflight.length] W.solutions] ++
                    [Event.recv false (i + 1) 1 w.inflight W.solutions] }
      i w hi hex 2 [pointer] _ rfl
    simp only at hs
    rw [hs]
    simp only
    have hr := MPI_Recv_ack enum
      { W with solutions := W.solutions ++ w.inflight
               anys := W.anys + 1
               trace := W.trace ++
                    [Event.recv true (i + 1) 1 [w.inflight.length] W.solutions] ++
                    [Event.recv false (i + 1) 1 w.inflight W.solutions] ++
                    [Event.send (i + 1) 2 [pointer] (W.solutions ++ w.inflight)] }
      i w hi [pointer] _ rfl
    simp only at hr
    rw [hr]
    simp [retire, request_events, hout]

theorem drain_body_eq (enum : Engine) (sched : Nat → Nat)
    {n k : Nat} {W : World} (hW : Shape n k W) (hp : W.pending ≠ []) :
    ∃ i w, W.workers[i]? = some w ∧ w.exited = false ∧
      drain_body enum sched W = some (retire enum i w W) := by
  obtain ⟨i, w, m, rest, hw, hout, hany⟩ := MPI_Recv_any_some sched hp
  have hpk := hW.hpark w (mem_of_getElem?_some hw)
  have hex := live_of_out hpk (by simp [hout])
  exact ⟨i, w, hw, hex, drain_body_at enum sched hW hw hout hany⟩

/-! ## Runs as sequences of services -/

theorem shape_serve (enum : Engine) {n k : Nat} {W : World} (hW : Shape n k W)
    {i : Nat} {w : Worker} (hw : W.workers[i]? = some w) (hex : w.exited = false)
    (tag : Nat) (htag : tag ≠ 2) (data : List Nat) :
    Shape n k (serve enum i w tag data W) := by
  refine ⟨hW.hnum, ?_⟩
  intro v hv
  rcases List.mem_or_eq_of_mem_set hv with h | h
  · exact hW.hpark v h
  · rw [h]
    exact parked_after_work enum (hW.hpark w (mem_of_getElem?_some hw)) hex tag htag data

theorem shape_retire (enum : Engine) {n k : Nat} {W : World} (hW : Shape n k W)
    {i : Nat} {w : Worker} (hw : W.workers[i]? = some w) (hex : w.exited = false) :
    Shape n k (retire enum i w W) := by
  refine ⟨hW.hnum, ?_⟩
  intro v hv
  rcases List.mem_or_eq_of_mem_set hv with h | h
  · exact hW.hpark v h
  · rw [h]
    exact parked_after_term enum (hW.hpark w (mem_of_getElem?_some hw)) hex [pointer]

theorem shape_test {n k : Nat} {W : World} (hW : Shape n k W) (c : Int) :
    Shape n k { W with trace := W.trace ++ [Event.test c] } :=
  ⟨hW.hnum, hW.hpark⟩

theorem countP_set {α : Type} (p : α → Bool) (l : List α) (i : Nat) (a b : α)
    (h : l[i]? = some a) :
    (l.set i b).countP p + (if p a then 1 else 0) = l.countP p + (if p b then 1 else 0) := by
  induction l generalizing i with
  | nil => simp at h
  | cons x xs ih =>
    cases i with
    | zero =>
      simp only [List.getElem?_cons_zero, Option.some.injEq] at h
      subst h
      simp only [List.set_cons_zero, List.countP_cons]
      omega
    | succ j =>
      simp only [List.getElem?_cons_succ] at h
      have := ih j h
      simp only [List.set_cons_succ, List.countP_cons]
      omega

theorem live_serve (enum : Engine) {n k : Nat} {W : World} (hW : Shape n k W)
    {i : Nat} {w : Worker} (hw : W.workers[i]? = some w) (hex : w.exited = false)
    (tag : Nat) (htag : tag ≠ 2) (data : List Nat) :
    (serve enum i w tag data W).live = W.live := by
  have hpk := hW.hpark w (mem_of_getElem?_some hw)
  have := countP_set (fun w => !w.exited) W.workers i w
    (worker_deliver enum ⟨tag, data⟩ { w with out := [] }) hw
  rw [worker_deliver_work enum hpk tag htag] at this
  simp only [hex, Bool.not_false, if_true] at this
  unfold World.live
  simp only [serve]
  rw [worker_deliver_work enum hpk tag htag]
  simp only [hex, Bool.not_false, if_true]
  omega

theorem live_retire (enum : Engine) {W : World}
    {i : Nat} {w : Worker} (hw : W.workers[i]? = some w) (hex : w.exited = false) :
    (retire enum i w W).live + 1 = W.live := by
  have := countP_set (fun w => !w.exited) W.workers i w
    { worker_deliver enum ⟨2, [pointer]⟩ { w with out := [] } with out := [] } hw
  rw [worker_deliver_term] at this
  simp only [hex, Bool.not_false, if_true, Bool.not_true] at this
  unfold World.live
  simp only [retire]
  rw [worker_deliver_term]
  simpa using this

theorem pending_of_live {n k : Nat} {W : World} (hW : Shape n k W) (h : 0 < W.live) :
    W.pending ≠ [] := by
  unfold World.live at h
  rw [List.countP_pos_iff] at h
  obtain ⟨w, hmem, hlive⟩ := h
  have hex : w.exited = false := by simpa using hlive
  obtain ⟨i, hi, hget⟩ := List.getElem_of_mem hmem
  have hw : W.workers[i]? = some w := by rw [List.getElem?_eq_getElem hi, hget]
  have hout : w.out ≠ [] := by
    rcases (hW.hpark w hmem).hlive hex with h | h <;> simp [h]
  have : i + 1 ∈ W.pending := mem_pending.mpr ⟨i, w, rfl, hw, hout⟩
  exact List.ne_nil_of_mem this

theorem dispatch_exists (enum : Engine) (sched : Nat → Nat) {n k : Nat}
    (ys : List (List Nat)) {W : World} (hW : Shape n k W) (hl : 0 < W.live) :
    ∃ W1, dispatch enum sched ys W = some W1 ∧ Dispatched enum n k ys W W1 ∧
      Shape n k W1 ∧ W1.live = W.live := by
  induction ys generalizing W with
  | nil => exact ⟨W, rfl, Dispatched.done W, hW, rfl⟩
  | cons y ys ih =>
    obtain ⟨i, w, hw, hex, heq⟩ :=
      master_solution_func_eq enum sched y hW (pending_of_live hW hl)
    have hS := shape_serve enum hW hw hex 0 (by decide) (y.take n)
    have hL := live_serve enum hW hw hex 0 (by decide) (y.take n)
    obtain ⟨W1, h1, h2, h3, h4⟩ := ih hS (by omega)
    refine ⟨W1, ?_, Dispatched.step hW hw hex h2, h3, by omega⟩
    simp only [dispatch, heq]
    exact h1

theorem drain_exists (enum : Engine) (sched : Nat → Nat) {n k : Nat}
    (c : Nat) {W : World} (hW : Shape n k W) (hl : W.live = c) (fuel : Nat) (hf : c < fuel) :
    ∃ W1, drain enum sched fuel (c : Int) W = some W1 ∧ Drained enum n k c W W1 ∧
      Shape n k W1 ∧ W1.live = 0 := by
  induction c generalizing W fuel with
  | zero =>
    obtain ⟨f, rfl⟩ : ∃ f, fuel = f + 1 := ⟨fuel - 1, by omega⟩
    have hall : ∀ w ∈ W.workers, w.exited = true := by
      intro w hw
      have := List.countP_eq_zero.mp hl w hw
      simpa using this
    refine ⟨_, ?_, Drained.done W hall, shape_test hW 0, hl⟩
    simp [drain]
  | succ c ih =>
    obtain ⟨f, rfl⟩ : ∃ f, fuel = f + 1 := ⟨fuel - 1, by omega⟩
    have hW1 := shape_test hW ((c : Int) + 1)
    have hl1 : 0 < World.live { W with trace := W.trace ++ [Event.test ((c : Int) + 1)] } := by
      show 0 < W.live
      omega
    obtain ⟨i, w, hw, hex, heq⟩ := drain_body_eq enum sched hW1 (pending_of_live hW1 hl1)
    have hS := shape_retire enum hW1 hw hex
    have hL := live_retire enum hw hex
    have hl2 : World.live { W with trace := W.trace ++ [Event.test ((c : Int) + 1)] } = c + 1 := hl
    obtain ⟨W1, h1, h2, h3, h4⟩ := ih hS (by omega) f (by omega)
    refine ⟨W1, ?_, Drained.step hW hw hex h2, h3, h4⟩
    have hpos : ((c + 1 : Nat) : Int) > 0 := by omega
    simp only [drain, hpos, if_true]
    push_cast
    rw [heq]
    simp only [add_sub_cancel_right]
    exact h1

theorem shape_bcast (n k P : Nat) : Shape n k (MPI_Bcast n k P) := by
  refine ⟨rfl, ?_⟩
  intro w hw
  rw [List.eq_of_mem_replicate hw]
  exact parked_worker_main n k

theorem live_bcast (n k P : Nat) : (MPI_Bcast n k P).live = P - 1 := by
  simp [World.live, MPI_Bcast, List.countP_replicate, worker_main, worker_request]

/-- Every run with at least one executor completes, as a dispatch phase
followed by a drain phase. -/
theorem run_exists (enum : Engine) (sched : Nat → Nat) (n k P : Nat) (hP : 2 ≤ P) :
    ∃ W1 W2, master_run enum sched n k P = some W2 ∧
      Dispatched enum n k (enum (List.replicate n 0) 0 k) (MPI_Bcast n k P) W1 ∧
      Drained enum n k (P - 1) W1 W2 ∧ Shape n k W1 ∧ W1.live = P - 1 ∧
      Shape n k W2 ∧ W2.live = 0 := by
  have hl := live_bcast n k P
  obtain ⟨W1, h1, h2, h3, h4⟩ := dispatch_exists enum sched (enum (List.replicate n 0) 0 k)
    (shape_bcast n k P) (by omega)
  obtain ⟨W2, g1, g2, g3, g4⟩ := drain_exists enum sched (P - 1) h3 (by omega) (P + 1) (by omega)
  refine ⟨W1, W2, ?_, h2, g2, h3, by omega, g3, g4⟩
  simp only [master_run, h1]
  have hc : ((P : Int) - 1) = ((P - 1 : Nat) : Int) := by omega
  rw [hc]
  exact g1

theorem Dispatched.workers_length {enum : Engine} {n k : Nat} {ys : List (List Nat)} {W W1 : World}
    (h : Dispatched enum n k ys W W1) : W1.workers.length = W.workers.length := by
  induction h with
  | done W => rfl
  | step _ _ _ _ ih => simpa [serve] using ih

theorem Drained.workers_count {enum : Engine} {n k c : Nat} {W W1 : World}
    (h : Drained enum n k c W W1) : W1.workers.length = W.workers.length := by
  induction h with
  | done W _ => rfl
  | step _ _ _ _ ih => simpa [retire] using ih

/-! ## The skeleton of rank 0's trace -/

theorem skeleton_append (a b : List Event) : skeleton (a ++ b) = skeleton a ++ skeleton b := by
  simp [skeleton]

theorem skeleton_request_events {n k : Nat} {w : Worker} (hw : Parked n k w)
    (hex : w.exited = false) (source : Nat) (buf : List Nat) :
    skeleton (request_events source w buf) = [Act.req source] := by
  rcases hw.hlive hex with h | h
  · simp [request_events, h, skeleton, Event.act]
  · rw [request_events, h]
    simp [skeleton, Event.act]

theorem skeleton_dispatched {enum : Engine} {n k : Nat} {ys : List (List Nat)} {W W1 : World}
    (h : Dispatched enum n k ys W W1) :
    ∃ reqs : List Nat, reqs.length = ys.length ∧
      (∀ s ∈ reqs, 1 ≤ s ∧ s ≤ W.workers.length) ∧
      skeleton W1.trace = skeleton W.trace ++ dispatch_acts reqs (ys.map (List.take n)) := by
  induction h with
  | done W => exact ⟨[], rfl, by simp, by simp [dispatch_acts]⟩
  | @step W W1 i w solution rest hshape hw hex _ ih =>
    obtain ⟨reqs, hlen, hrng, hsk⟩ := ih
    have hpk := hshape.hpark w (mem_of_getElem?_some hw)
    have hi := lt_of_getElem?_some hw
    refine ⟨(i + 1) :: reqs, by simp [hlen], ?_, ?_⟩
    · intro s hs
      rcases List.mem_cons.mp hs with h | h
      · omega
      · simpa [serve] using hrng s h
    · rw [hsk]
      simp only [serve, skeleton_append, skeleton_request_events hpk hex]
      simp [skeleton, Event.act, dispatch_acts]

theorem live_ranks_retire (off : Nat) (ws : List Worker) (i : Nat) (w v : Worker)
    (hw : ws[i]? = some w) (hex : w.exited = false) (hv : v.exited = true) :
    (live_ranks off ws).Perm ((off + i) :: live_ranks off (ws.set i v)) := by
  induction ws generalizing i off with
  | nil => simp at hw
  | cons x xs ih =>
    cases i with
    | zero =>
      simp only [List.getElem?_cons_zero, Option.some.injEq] at hw
      subst hw
      simp [live_ranks, hex, hv]
    | succ j =>
      simp only [List.getElem?_cons_succ] at hw
      have := ih (off + 1) j hw
      have e : off + 1 + j = off + (j + 1) := by omega
      rw [e] at this
      simp only [List.set_cons_succ, live_ranks]
      split
      · exact this
      · exact (List.Perm.cons off this).trans (List.Perm.swap _ _ _)

theorem live_ranks_all (off : Nat) (ws : List Worker) (h : ∀ w ∈ ws, w.exited = false) :
    live_ranks off ws = List.range' off ws.length := by
  induction ws generalizing off with
  | nil => rfl
  | cons x xs ih =>
    have hx := h x (List.mem_cons_self _ _)
    simp only [live_ranks, hx, List.length_cons, List.range'_succ]
    rw [ih (off + 1) (fun w hw => h w (List.mem_cons_of_mem _ hw))]
    simp

theorem live_ranks_none (off : Nat) (ws : List Worker) (h : ∀ w ∈ ws, w.exited = true) :
    live_ranks off ws = [] := by
  induction ws generalizing off with
  | nil => rfl
  | cons x xs ih =>
    have hx := h x (List.mem_cons_self _ _)
    simp only [live_ranks, hx, if_true]
    exact ih (off + 1) (fun w hw => h w (List.mem_cons_of_mem _ hw))

theorem skeleton_drained {enum : Engine} {n k c : Nat} {W W1 : World}
    (h : Drained enum n k c W W1) :
    ∃ srcs : List Nat, srcs.length = c ∧ srcs.Perm (live_ranks 1 W.workers) ∧
      skeleton W1.trace = skeleton W.trace ++ drain_acts srcs := by
  induction h with
  | done W hall =>
    refine ⟨[], rfl, ?_, by simp [skeleton, Event.act, drain_acts]⟩
    rw [live_ranks_none 1 W.workers hall]
  | @step W W1 c i w hshape hw hex _ ih =>
    obtain ⟨srcs, hlen, hperm, hsk⟩ := ih
    have hpk := hshape.hpark w (mem_of_getElem?_some hw)
    refine ⟨(i + 1) :: srcs, by simp [hlen], ?_, ?_⟩
    · have := live_ranks_retire 1 W.workers i w
        { worker_deliver enum ⟨2, [pointer]⟩ { w with out := [] } with out := [] } hw hex
        (by simp [worker_deliver_term])
      have e : 1 + i = i + 1 := by omega
      rw [e] at this
      exact (List.Perm.cons _ hperm).trans this.symm
    · rw [hsk]
      simp only [retire, skeleton_append, skeleton_request_events hpk hex]
      simp [skeleton, Event.act, drain_acts, hlen]

theorem all_exited_of_live {W : World} (h : W.live = 0) : ∀ w ∈ W.workers, w.exited = true := by
  intro w hw
  have := List.countP_eq_zero.mp h w hw
  simpa using this

theorem all_live_of_live {W : World} (h : W.live = W.workers.length) :
    ∀ w ∈ W.workers, w.exited = false := by
  intro w hw
  have := List.countP_eq_length.mp h w hw
  simpa using this

theorem workers_bcast (n k P : Nat) : (MPI_Bcast n k P).workers.length = P - 1 := by
  simp [MPI_Bcast]

theorem trace_bcast (n k P : Nat) : (MPI_Bcast n k P).trace = [] := rfl

/-- The skeleton of the trace of a complete run. -/
theorem skeleton_run (enum : Engine) (sched : Nat → Nat) (n k P : Nat) (hP : 2 ≤ P) :
    ∃ W reqs srcs, master_run enum sched n k P = some W ∧
      reqs.length = (enum (List.replicate n 0) 0 k).length ∧
      (∀ s ∈ reqs, 1 ≤ s ∧ s ≤ P - 1) ∧
      srcs.Perm (List.range' 1 (P - 1)) ∧
      skeleton W.trace =
        dispatch_acts reqs ((enum (List.replicate n 0) 0 k).map (List.take n)) ++
          drain_acts srcs := by
  obtain ⟨W1, W2, hrun, hd, hdr, hS1, hL1, -, -⟩ := run_exists enum sched n k P hP
  obtain ⟨reqs, hlen, hrng, hsk1⟩ := skeleton_dispatched hd
  obtain ⟨srcs, -, hperm, hsk2⟩ := skeleton_drained hdr
  have hlen1 : W1.workers.length = P - 1 := by rw [hd.workers_length, workers_bcast]
  have hall := all_live_of_live (W := W1) (by omega)
  rw [live_ranks_all 1 W1.workers hall, hlen1] at hperm
  refine ⟨W2, reqs, srcs, hrun, hlen, ?_, hperm, ?_⟩
  · intro s hs
    have := hrng s hs
    rw [workers_bcast] at this
    exact this
  · rw [hsk2, hsk1, trace_bcast]
    simp [skeleton]

theorem work_dispatch_acts (reqs : List Nat) (ys : List (List Nat))
    (h : reqs.length = ys.length) : (dispatch_acts reqs ys).filterMap Act.work = ys := by
  induction ys generalizing reqs with
  | nil =>
    cases reqs <;> simp [dispatch_acts]
  | cons y ys ih =>
    cases reqs with
    | nil => simp at h
    | cons s ss =>
      simp only [List.length_cons, Nat.add_right_cancel_iff] at h
      simp [dispatch_acts, Act.work, ih ss h]

theorem work_drain_acts (srcs : List Nat) : (drain_acts srcs).filterMap Act.work = [] := by
  induction srcs with
  | nil => simp [drain_acts, Act.work]
  | cons s ss ih => simp [drain_acts, Act.work, ih]

theorem acked_dispatch_acts (reqs : List Nat) (ys : List (List Nat)) :
    (dispatch_acts reqs ys).filterMap Act.acked = [] := by
  induction ys generalizing reqs with
  | nil => cases reqs <;> simp [dispatch_acts]
  | cons y ys ih =>
    cases reqs with
    | nil => simp [dispatch_acts]
    | cons s ss => simp [dispatch_acts, Act.acked, ih ss]

theorem acked_drain_acts (srcs : List Nat) : (drain_acts srcs).filterMap Act.acked = srcs := by
  induction srcs with
  | nil => simp [drain_acts, Act.acked]
  | cons s ss ih => simp [drain_acts, Act.acked, ih]

theorem map_take_of_sized {enum : Engine} (hsz : Sized enum) (n start target : Nat) :
    (enum (List.replicate n 0) start target).map (List.take n) =
      enum (List.replicate n 0) start target := by
  conv_rhs => rw [← List.map_id (enum (List.replicate n 0) start target)]
  apply List.map_congr_left
  intro v hv
  have := hsz _ _ _ v hv
  rw [List.length_replicate] at this
  rw [List.take_of_length_le (by omega)]
  rfl

/-! ## Blocks of a flat buffer -/

theorem blocksAux_flatten (n : Nat) (hn : 0 < n) (L : List (List Nat))
    (hL : ∀ v ∈ L, v.length = n) (fuel : Nat) (hf : L.flatten.length ≤ fuel) :
    blocksAux n fuel L.flatten = L := by
  induction L generalizing fuel with
  | nil =>
    cases fuel <;> simp [blocksAux]
  | cons v L ih =>
    have hv : v.length = n := hL v (List.mem_cons_self _ _)
    have hL1 : ∀ u ∈ L, u.length = n := fun u hu => hL u (List.mem_cons_of_mem _ hu)
    simp only [List.flatten_cons, List.length_append] at hf
    obtain ⟨f, rfl⟩ : ∃ f, fuel = f + 1 := ⟨fuel - 1, by omega⟩
    have hne : v ++ L.flatten ≠ [] := by
      intro h
      have := congrArg List.length h
      rw [List.length_append, List.length_nil] at this
      omega
    simp only [List.flatten_cons, blocksAux, hne, if_false]
    have ht : (v ++ L.flatten).take n = v := by
      rw [← hv]
      simp
    have hd : (v ++ L.flatten).drop n = L.flatten := by
      rw [← hv]
      simp
    rw [ht, hd, ih hL1 f (by omega)]

theorem blocks_flatten (n : Nat) (hn : 0 < n) (L : List (List Nat))
    (hL : ∀ v ∈ L, v.length = n) : blocks n L.flatten = L :=
  blocksAux_flatten n hn L hL _ (le_refl _)

theorem Chunked.nil (n : Nat) : Chunked n [] := ⟨[], rfl, by simp⟩

theorem Chunked.flatten {n : Nat} {L : List (List Nat)} (hL : ∀ v ∈ L, v.length = n) :
    Chunked n L.flatten := ⟨L, rfl, hL⟩

theorem Chunked.append {n : Nat} {a b : List Nat} (ha : Chunked n a) (hb : Chunked n b) :
    Chunked n (a ++ b) := by
  obtain ⟨A, rfl, hA⟩ := ha
  obtain ⟨B, rfl, hB⟩ := hb
  refine ⟨A ++ B, by simp, ?_⟩
  intro v hv
  rcases List.mem_append.mp hv with h | h
  · exact hA v h
  · exact hB v h

theorem blocks_append {n : Nat} (hn : 0 < n) {a b : List Nat} (ha : Chunked n a)
    (hb : Chunked n b) : blocks n (a ++ b) = blocks n a ++ blocks n b := by
  obtain ⟨A, rfl, hA⟩ := ha
  obtain ⟨B, rfl, hB⟩ := hb
  have hAB : ∀ v ∈ A ++ B, v.length = n := by
    intro v hv
    rcases List.mem_append.mp hv with h | h
    · exact hA v h
    · exact hB v h
  rw [← List.flatten_append, blocks_flatten n hn _ hAB, blocks_flatten n hn _ hA,
    blocks_flatten n hn _ hB]

theorem Chunked.flatten_blocks {n : Nat} (hn : 0 < n) {l : List Nat} (h : Chunked n l) :
    (blocks n l).flatten = l := by
  obtain ⟨L, rfl, hL⟩ := h
  rw [MpiNQueens.blocks_flatten n hn L hL]

theorem Chunked.blocks_length {n : Nat} (hn : 0 < n) {l : List Nat} (h : Chunked n l) :
    ∀ b ∈ blocks n l, b.length = n := by
  obtain ⟨L, rfl, hL⟩ := h
  rw [MpiNQueens.blocks_flatten n hn L hL]
  exact hL

theorem Chunked.dvd {n : Nat} {l : List Nat} (h : Chunked n l) : n ∣ l.length := by
  obtain ⟨L, rfl, hL⟩ := h
  induction L with
  | nil => simp
  | cons v L ih =>
    rw [List.flatten_cons, List.length_append]
    exact Dvd.dvd.add ⟨1, by rw [hL v (List.mem_cons_self _ _)]; simp⟩
      (ih fun u hu => hL u (List.mem_cons_of_mem _ hu))

theorem length_recv_buf (count : Nat) (data : List Nat) : (recv_buf count data).length = count := by
  simp [recv_buf]

/-! ## Sums over the executors -/

theorem over_split (f : Worker → Multiset (List Nat)) (ws : List Worker) (i : Nat) (w : Worker)
    (hw : ws[i]? = some w) : over f ws = f w + over f (ws.eraseIdx i) := by
  induction ws generalizing i with
  | nil => simp at hw
  | cons x xs ih =>
    cases i with
    | zero =>
      simp only [List.getElem?_cons_zero, Option.some.injEq] at hw
      subst hw
      simp [over]
    | succ j =>
      simp only [List.getElem?_cons_succ] at hw
      have := ih j hw
      simp only [over, List.map_cons, List.sum_cons, List.eraseIdx_cons_succ] at this ⊢
      rw [this]
      exact add_left_comm _ _ _

theorem eraseIdx_set_self {α : Type} (l : List α) (i : Nat) (a : α) :
    (l.set i a).eraseIdx i = l.eraseIdx i := by
  induction l generalizing i with
  | nil => rfl
  | cons x xs ih =>
    cases i with
    | zero => rfl
    | succ j => simp [ih j]

theorem over_set (f : Worker → Multiset (List Nat)) (ws : List Worker) (i : Nat) (w v : Worker)
    (hw : ws[i]? = some w) : over f (ws.set i v) = f v + over f (ws.eraseIdx i) := by
  have hi := lt_of_getElem?_some hw
  have h1 : (ws.set i v)[i]? = some v := by simp [List.getElem?_set, hi]
  rw [over_split f (ws.set i v) i v h1, eraseIdx_set_self]

theorem mem_over {f : Worker → Multiset (List Nat)} {ws : List Worker} {b : List Nat} :
    b ∈ over f ws ↔ ∃ w ∈ ws, b ∈ f w := by
  induction ws with
  | nil => simp [over]
  | cons x xs ih =>
    simp only [over, List.map_cons, List.sum_cons, Multiset.mem_add, List.mem_cons,
      exists_eq_or_imp] at ih ⊢
    rw [ih]

/-! ## Accounting of the solutions -/

theorem blocks_nil (n : Nat) : blocks n [] = [] := rfl

theorem buf_request_events (source : Nat) (w : Worker) (buf : List Nat) :
    ∀ e ∈ request_events source w buf, e.buf = buf := by
  intro e he
  unfold request_events at he
  split at he
  · simp at he
  · rcases List.mem_cons.mp he with h | h
    · rw [h]; rfl
    · obtain ⟨p, -, rfl⟩ := List.mem_map.mp h
      rfl

theorem acct_serve {enum : Engine} (hsz : Sized enum) {n k : Nat} (hn : 0 < n) {W : World}
    (hW : Shape n k W) (hA : Acct n W) {i : Nat} {w : Worker} (hw : W.workers[i]? = some w)
    (tag : Nat) (htag : tag ≠ 2) (data : List Nat) :
    Acct n (serve enum i w tag data W) := by
  have hmem := mem_of_getElem?_some hw
  have hpk := hW.hpark w hmem
  have hY : ∀ v ∈ enum (recv_buf n data) k n, v.length = n := by
    intro v hv
    rw [hsz _ _ _ v hv, length_recv_buf]
  have hcw := hA.hinf w hmem
  have hcb : Chunked n (W.solutions ++ w.inflight) := hA.hbuf.append hcw
  have hbl := blocks_append hn hA.hbuf hcw
  unfold serve
  rw [worker_deliver_work enum hpk tag htag]
  constructor
  · exact hcb
  · intro v hv
    rcases List.mem_or_eq_of_mem_set hv with h | h
    · exact hA.hinf v h
    · rw [h]
      simpa [Worker.inflight] using Chunked.flatten hY
  · intro v hv u hu
    rcases List.mem_or_eq_of_mem_set hv with h | h
    · exact hA.hfound v h u hu
    · rw [h] at hu
      rcases List.mem_append.mp hu with h1 | h1
      · exact hA.hfound w hmem u h1
      · exact hY u h1
  · have hs := hA.hsum
    rw [over_split _ _ i w hw, over_split (fun w => (↑w.found : Multiset (List Nat))) _ i w hw] at hs
    simp only
    rw [over_set _ _ i w _ hw, over_set (fun w => (↑w.found : Multiset (List Nat))) _ i w _ hw, hbl]
    have e1 : Worker.inflight
        { w with
          out := [⟨1, [(enum (recv_buf n data) k n).flatten.length]⟩,
                  ⟨1, (enum (recv_buf n data) k n).flatten⟩]
          found := w.found ++ enum (recv_buf n data) k n
          flushed := w.flushed ++ [(enum (recv_buf n data) k n).flatten]
          got := w.got ++ [⟨tag, data⟩] } = (enum (recv_buf n data) k n).flatten := by
      simp [Worker.inflight]
    simp only [e1]
    rw [blocks_flatten n hn _ hY, ← Multiset.coe_add, ← Multiset.coe_add]
    generalize over (fun w => (↑(blocks n w.inflight) : Multiset (List Nat)))
      (W.workers.eraseIdx i) = Rp at hs ⊢
    generalize over (fun w => (↑w.found : Multiset (List Nat))) (W.workers.eraseIdx i) = Rf at hs ⊢
    calc (↑(blocks n W.solutions) + ↑(blocks n w.inflight) : Multiset (List Nat)) +
          (↑(enum (recv_buf n data) k n) + Rp)
        = (↑(blocks n W.solutions) + (↑(blocks n w.inflight) + Rp)) +
          ↑(enum (recv_buf n data) k n) := by abel
      _ = (↑w.found + Rf) + ↑(enum (recv_buf n data) k n) := by rw [hs]
      _ = ↑w.found + ↑(enum (recv_buf n data) k n) + Rf := by abel
  · intro e he
    simp only at he
    rw [hbl]
    rcases List.mem_append.mp he with h | h
    · rcases List.mem_append.mp h with h | h
      · exact ⟨(hA.hsnap e h).1, fun b hb => List.mem_append_left _ ((hA.hsnap e h).2 b hb)⟩
      · rw [buf_request_events _ _ _ e h]
        exact ⟨hA.hbuf, fun b hb => List.mem_append_left _ hb⟩
    · rw [List.mem_singleton] at h
      rw [h]
      simp only [Event.buf]
      rw [hbl]
      exact ⟨hcb, fun b hb => hb⟩

theorem acct_retire {enum : Engine} {n : Nat} (hn : 0 < n) {W : World}
    (hA : Acct n W) {i : Nat} {w : Worker} (hw : W.workers[i]? = some w) :
    Acct n (retire enum i w W) := by
  have hmem := mem_of_getElem?_some hw
  have hcw := hA.hinf w hmem
  have hcb : Chunked n (W.solutions ++ w.inflight) := hA.hbuf.append hcw
  have hbl := blocks_append hn hA.hbuf hcw
  unfold retire
  rw [worker_deliver_term]
  constructor
  · exact hcb
  · intro v hv
    rcases List.mem_or_eq_of_mem_set hv with h | h
    · exact hA.hinf v h
    · rw [h]
      exact Chunked.nil n
  · intro v hv u hu
    rcases List.mem_or_eq_of_mem_set hv with h | h
    · exact hA.hfound v h u hu
    · rw [h] at hu
      exact hA.hfound w hmem u hu
  · have hs := hA.hsum
    rw [over_split _ _ i w hw, over_split (fun w => (↑w.found : Multiset (List Nat))) _ i w hw] at hs
    simp only
    rw [over_set _ _ i w _ hw, over_set (fun w => (↑w.found : Multiset (List Nat))) _ i w _ hw, hbl]
    have e1 : Worker.inflight
        { w with out := [], exited := true, got := w.got ++ [⟨2, [pointer]⟩] } = [] := rfl
    simp only [e1]
    rw [blocks_nil, ← Multiset.coe_add, ← hs]
    simp only [Multiset.coe_nil, zero_add, add_assoc]
  · intro e he
    simp only at he
    rw [hbl]
    rcases List.mem_append.mp he with h | h
    · rcases List.mem_append.mp h with h | h
      · exact ⟨(hA.hsnap e h).1, fun b hb => List.mem_append_left _ ((hA.hsnap e h).2 b hb)⟩
      · rw [buf_request_events _ _ _ e h]
        exact ⟨hA.hbuf, fun b hb => List.mem_append_left _ hb⟩
    · have hb : e.buf = W.solutions ++ w.inflight := by
        rcases List.mem_cons.mp h with h | h
        · rw [h]; rfl
        · rw [List.mem_singleton] at h
          rw [h]; rfl
      rw [hb, hbl]
      exact ⟨hcb, fun b hb => hb⟩

theorem acct_test {n : Nat} {W : World} (hA : Acct n W) (c : Int) :
    Acct n { W with trace := W.trace ++ [Event.test c] } := by
  refine ⟨hA.hbuf, hA.hinf, hA.hfound, hA.hsum, ?_⟩
  intro e he
  rcases List.mem_append.mp he with h | h
  · exact hA.hsnap e h
  · rw [List.mem_singleton] at h
    rw [h]
    exact ⟨Chunked.nil n, fun b hb => by simp [Event.buf, blocks_nil] at hb⟩

theorem acct_bcast (n k P : Nat) : Acct n (MPI_Bcast n k P) := by
  refine ⟨Chunked.nil n, ?_, ?_, ?_, ?_⟩
  · intro w hw
    rw [List.eq_of_mem_replicate hw]
    exact Chunked.nil n
  · intro w hw v hv
    rw [List.eq_of_mem_replicate hw] at hv
    simp [worker_main, worker_request] at hv
  · have h : ∀ m : Nat, over (fun w => (↑(blocks n w.inflight) : Multiset (List Nat)))
        (List.replicate m (worker_main n k)) = 0 ∧
        over (fun w => (↑w.found : Multiset (List Nat))) (List.replicate m (worker_main n k)) = 0 := by
      intro m
      induction m with
      | zero => simp [over]
      | succ m ih =>
        obtain ⟨h1, h2⟩ := ih
        simp only [over] at h1 h2
        simp only [over, List.replicate_succ, List.map_cons, List.sum_cons, h1, h2]
        constructor
        · rfl
        · rfl
    simp only [MPI_Bcast]
    rw [(h (P - 1)).1, (h (P - 1)).2]
    rfl
  · intro e he
    simp [MPI_Bcast] at he

theorem acct_dispatched {enum : Engine} (hsz : Sized enum) {n k : Nat} (hn : 0 < n)
    {ys : List (List Nat)} {W W1 : World} (h : Dispatched enum n k ys W W1) (hA : Acct n W) :
    Acct n W1 := by
  induction h with
  | done W => exact hA
  | step hshape hw _ _ ih => exact ih (acct_serve hsz hn hshape hA hw 0 (by decide) _)

theorem acct_drained {enum : Engine} {n k : Nat} (hn : 0 < n)
    {c : Nat} {W W1 : World} (h : Drained enum n k c W W1) (hA : Acct n W) :
    Acct n W1 := by
  induction h with
  | done W _ => exact acct_test hA 0
  | step _ hw _ _ ih => exact ih (acct_retire hn (acct_test hA _) hw)

theorem found_dispatched {enum : Engine} {n k : Nat}
    {ys : List (List Nat)} {W W1 : World} (h : Dispatched enum n k ys W W1) :
    W1.found = W.found +
      ↑(ys.flatMap fun y => enum (recv_buf n (y.take n)) k n) := by
  induction h with
  | done W => simp
  | @step W W1 i w solution rest hshape hw hex _ ih =>
    rw [ih]
    have hpk := hshape.hpark w (mem_of_getElem?_some hw)
    simp only [World.found, serve]
    rw [worker_deliver_work enum hpk 0 (by decide), over_set _ _ i w _ hw, over_split _ _ i w hw]
    simp only [List.flatMap_cons, ← Multiset.coe_add]
    abel

theorem found_drained {enum : Engine} {n k c : Nat} {W W1 : World}
    (h : Drained enum n k c W W1) : W1.found = W.found := by
  induction h with
  | done W _ => rfl
  | @step W W1 c i w hshape hw hex _ ih =>
    rw [ih]
    simp only [World.found, retire]
    rw [worker_deliver_term, over_set _ _ i w _ hw, over_split _ _ i w hw]

theorem found_bcast (n k P : Nat) : (MPI_Bcast n k P).found = 0 := by
  have h : ∀ m : Nat,
      over (fun w => (↑w.found : Multiset (List Nat))) (List.replicate m (worker_main n k)) = 0 := by
    intro m
    induction m with
    | zero => simp [over]
    | succ m ih =>
      simp only [over] at ih
      simp only [over, List.replicate_succ, List.map_cons, List.sum_cons, ih]
      rfl
  exact h (P - 1)

/-- The accounting at the end of a complete run. -/
theorem acct_run (enum : Engine) (hsz : Sized enum) (sched : Nat → Nat) (n k P : Nat)
    (hn : 0 < n) (hP : 2 ≤ P) :
    ∃ W, master_run enum sched n k P = some W ∧ Shape n k W ∧ W.live = 0 ∧ Acct n W ∧
      (↑(blocks n W.solutions) : Multiset (List Nat)) = W.found ∧
      W.found = ↑((enum (List.replicate n 0) 0 k).flatMap fun y => enum (recv_buf n (y.take n)) k n) := by
  obtain ⟨W1, W2, hrun, hd, hdr, hS1, hL1, hS2, hL2⟩ := run_exists enum sched n k P hP
  have hA2 := acct_drained hn hdr (acct_dispatched hsz hn hd (acct_bcast n k P))
  refine ⟨W2, hrun, hS2, hL2, hA2, ?_, ?_⟩
  · have hs := hA2.hsum
    have hz : over (fun w => (↑(blocks n w.inflight) : Multiset (List Nat))) W2.workers = 0 := by
      have hall := all_exited_of_live hL2
      have : ∀ ws : List Worker, (∀ w ∈ ws, w.out = []) →
          over (fun w => (↑(blocks n w.inflight) : Multiset (List Nat))) ws = 0 := by
        intro ws hws
        induction ws with
        | nil => simp [over]
        | cons x xs ih =>
          have hx := hws x (List.mem_cons_self _ _)
          have := ih (fun w hw => hws w (List.mem_cons_of_mem _ hw))
          have hin : x.inflight = [] := by simp [Worker.inflight, hx]
          simp only [over] at this
          simp only [over, List.map_cons, List.sum_cons, this, hin, blocks_nil]
          rfl
      exact this _ (fun w hw => (hS2.hpark w hw).hdone (hall w hw))
    rw [hz, add_zero] at hs
    exact hs
  · rw [found_drained hdr, found_dispatched hd, found_bcast, zero_add]

/-! ## The enumeration engine -/

theorem nqueens_go_length (n d : Nat) (pos : List Nat) (level : Nat) :
    ∀ v ∈ nqueens_go n d pos level, v.length = pos.length := by
  induction d generalizing pos level with
  | zero =>
    intro v hv
    simp only [nqueens_go, List.mem_singleton] at hv
    rw [hv]
  | succ d ih =>
    intro v hv
    simp only [nqueens_go, List.mem_flatMap] at hv
    obtain ⟨col, -, hv⟩ := hv
    split at hv
    · rw [ih _ _ v hv, List.length_set]
    · simp at hv

theorem sized_nqueens_by_level : Sized nqueens_by_level :=
  fun pos start target v hv => nqueens_go_length pos.length (target - start) pos start v hv

theorem nqueens_go_add (n a b : Nat) (pos : List Nat) (level : Nat) :
    nqueens_go n (a + b) pos level =
      (nqueens_go n a pos level).flatMap fun p => nqueens_go n b p (level + a) := by
  induction a generalizing pos level with
  | zero => simp [nqueens_go]
  | succ a ih =>
    have e : a + 1 + b = (a + b) + 1 := by omega
    rw [e]
    simp only [nqueens_go, List.flatMap_assoc]
    apply List.flatMap_congr
    intro col _
    split
    · rw [ih]
      apply List.flatMap_congr
      intro p _
      have e2 : level + 1 + a = level + (a + 1) := by omega
      rw [e2]
    · rfl

/-- Splitting the search at depth `k`: first rows `0..k-1`, then, from every
placement found, rows `k..n-1`. -/
theorem nqueens_split (n k : Nat) (hk : k ≤ n) :
    ((nqueens_by_level (List.replicate n 0) 0 k).flatMap fun y =>
        nqueens_by_level (recv_buf n (y.take n)) k n) =
      nqueens_by_level (List.replicate n 0) 0 n := by
  have e : n - 0 = k + (n - k) := by omega
  simp only [nqueens_by_level, List.length_replicate]
  rw [e, nqueens_go_add]
  apply List.flatMap_congr
  intro y hy
  have hlen : y.length = n := by
    rw [nqueens_go_length _ _ _ _ y hy, List.length_replicate]
  have h1 : y.take n = y := List.take_of_length_le (by omega)
  have h2 : recv_buf n y = y := by
    have := recv_buf_self y
    rwa [hlen] at this
  rw [h1, h2, hlen]
  simp

theorem nqueens_go_below (n d : Nat) (pos : List Nat) (level : Nat) :
    ∀ v ∈ nqueens_go n d pos level, ∀ i < level, v[i]? = pos[i]? := by
  induction d generalizing pos level with
  | zero =>
    intro v hv i _
    simp only [nqueens_go, List.mem_singleton] at hv
    rw [hv]
  | succ d ih =>
    intro v hv i hi
    simp only [nqueens_go, List.mem_flatMap] at hv
    obtain ⟨col, -, hv⟩ := hv
    split at hv
    · rw [ih _ _ v hv i (by omega), List.getElem?_set_ne (by omega)]
    · simp at hv

theorem nqueens_go_nodup (n d : Nat) (pos : List Nat) (level : Nat)
    (h : level + d ≤ pos.length) : (nqueens_go n d pos level).Nodup := by
  induction d generalizing pos level with
  | zero => simp [nqueens_go]
  | succ d ih =>
    simp only [nqueens_go]
    rw [List.nodup_flatMap]
    constructor
    · intro col _
      split
      · exact ih _ _ (by rw [List.length_set]; omega)
      · exact List.nodup_nil
    · refine List.Pairwise.imp ?_ (List.nodup_range n)
      intro a b hab
      simp only [Function.onFun]
      intro v hva hvb
      apply hab
      split at hva
      · split at hvb
        · have ha := nqueens_go_below _ _ _ _ v hva level (by omega)
          have hb := nqueens_go_below _ _ _ _ v hvb level (by omega)
          rw [ha] at hb
          simp only [List.getElem?_set, if_true] at hb
          have hlt : level < pos.length := by omega
          simp only [hlt, if_true, Option.some.injEq] at hb
          exact hb
        · simp at hvb
      · simp at hva

theorem nqueens_nodup (n : Nat) : (nqueens_by_level (List.replicate n 0) 0 n).Nodup :=
  nqueens_go_nodup _ _ _ _ (by simp)

theorem is_safe_iff (pos : List Nat) (level col : Nat) :
    is_safe pos level col = true ↔
      ∀ i < level, pos.getD i 0 ≠ col ∧ pos.getD i 0 + (level - i) ≠ col ∧
        col + (level - i) ≠ pos.getD i 0 := by
  simp [is_safe, List.all_eq_true]

theorem is_safe_congr {v pos : List Nat} {level : Nat} (h : ∀ i < level, v[i]? = pos[i]?)
    (col : Nat) : is_safe v level col = is_safe pos level col := by
  have hd : ∀ i < level, v.getD i 0 = pos.getD i 0 := by
    intro i hi
    rw [List.getD_eq_getElem?_getD, List.getD_eq_getElem?_getD, h i hi]
  rw [Bool.eq_iff_iff, is_safe_iff, is_safe_iff]
  constructor
  · intro hs i hi
    rw [← hd i hi]
    exact hs i hi
  · intro hs i hi
    rw [hd i hi]
    exact hs i hi

/-- The engine satisfies its contract: it yields exactly the valid
completions of `pos` on the rows `level..level+d-1`. -/
theorem mem_nqueens_go_iff (n d : Nat) (pos : List Nat) (level : Nat)
    (h : level + d ≤ pos.length) (v : List Nat) :
    v ∈ nqueens_go n d pos level ↔ Completes n pos level (level + d) v := by
  induction d generalizing pos level with
  | zero =>
    simp only [nqueens_go, List.mem_singleton, Completes, Nat.add_zero]
    constructor
    · rintro rfl
      exact ⟨rfl, fun _ _ => rfl, fun j h1 h2 => by omega⟩
    · rintro ⟨-, h2, -⟩
      apply List.ext_getElem?
      intro i
      exact h2 i (by omega)
  | succ d ih =>
    have hlt : level < pos.length := by omega
    simp only [nqueens_go, List.mem_flatMap, List.mem_range]
    constructor
    · rintro ⟨col, hcol, hv⟩
      split at hv
      · rename_i hsafe
        rw [ih _ _ (by rw [List.length_set]; omega)] at hv
        obtain ⟨h1, h2, h3⟩ := hv
        rw [List.length_set] at h1
        have hvl : v[level]? = some col := by
          rw [h2 level (by omega), List.getElem?_set]
          simp [hlt]
        have hvd : v.getD level 0 = col := by
          rw [List.getD_eq_getElem?_getD, hvl]
          rfl
        have hlow : ∀ i < level, v[i]? = pos[i]? := by
          intro i hi
          rw [h2 i (by omega), List.getElem?_set_ne (by omega)]
        refine ⟨h1, ?_, ?_⟩
        · intro i hi
          rw [h2 i (by omega), List.getElem?_set_ne (by omega)]
        · intro j hj1 hj2
          rcases Nat.eq_or_lt_of_le hj1 with rfl | hj
          · rw [hvd]
            refine ⟨hcol, ?_⟩
            rw [← is_safe_congr hlow col] at hsafe
            exact (is_safe_iff v level col).mp hsafe
          · exact h3 j (by omega) (by omega)
      · simp at hv
    · rintro ⟨h1, h2, h3⟩
      have hlow : ∀ i < level, v[i]? = pos[i]? := fun i hi => h2 i (Or.inl hi)
      obtain ⟨hc, hs⟩ := h3 level (le_refl _) (by omega)
      refine ⟨v.getD level 0, hc, ?_⟩
      have hsafe : is_safe pos level (v.getD level 0) = true := by
        rw [← is_safe_congr hlow]
        exact (is_safe_iff v level _).mpr hs
      rw [if_pos hsafe, ih _ _ (by rw [List.length_set]; omega)]
      refine ⟨by rw [List.length_set]; exact h1, ?_, ?_⟩
      · intro i hi
        by_cases hil : i = level
        · subst hil
          rw [List.getElem?_set]
          simp only [if_true, hlt]
          rw [List.getD_eq_getElem?_getD]
          have : i < v.length := by omega
          rw [List.getElem?_eq_getElem this]
          rfl
        · rw [List.getElem?_set_ne (fun h => hil h.symm)]
          exact h2 i (by omega)
      · intro j hj1 hj2
        exact h3 j (by omega) (by omega)

/-- The sequential enumeration yields exactly the placements of `n`
non-attacking queens, one per row, on the `n`-board. -/
theorem mem_nqueens_iff (n : Nat) (v : List Nat) :
    v ∈ nqueens_by_level (List.replicate n 0) 0 n ↔
      v.length = n ∧ ∀ j < n, v.getD j 0 < n ∧
        ∀ i < j, v.getD i 0 ≠ v.getD j 0 ∧ v.getD i 0 + (j - i) ≠ v.getD j 0 ∧
          v.getD j 0 + (j - i) ≠ v.getD i 0 := by
  have := mem_nqueens_go_iff n n (List.replicate n 0) 0 (by simp) v
  simp only [nqueens_by_level, List.length_replicate, Nat.sub_zero]
  rw [this]
  simp only [Completes, List.length_replicate, Nat.zero_add, Nat.not_lt_zero, false_or,
    Nat.zero_le, true_implies]
  constructor
  · rintro ⟨h1, -, h3⟩
    exact ⟨h1, h3⟩
  · rintro ⟨h1, h3⟩
    refine ⟨h1, ?_, h3⟩
    intro i hi
    rw [List.getElem?_eq_none (by omega), List.getElem?_eq_none (by simp; omega)]

/-! ## Single calls on arbitrary states -/

theorem MPI_Recv_frame {any : Bool} {source : Nat} {W W1 : World} {m : Msg}
    (h : MPI_Recv any source W = some (m, W1)) :
    W1.solutions = W.solutions ∧ W1.num = W.num ∧
      W1.trace = W.trace ++ [Event.recv any source m.tag m.data W.solutions] := by
  unfold MPI_Recv at h
  split at h
  · cases h
  · split at h
    · cases h
    · split at h
      · cases h
      · simp only [Option.some.injEq, Prod.mk.injEq] at h
        obtain ⟨rfl, rfl⟩ := h
        exact ⟨rfl, rfl, rfl⟩

theorem MPI_Recv_any_frame {sched : Nat → Nat} {source : Nat} {W W1 : World} {m : Msg}
    (h : MPI_Recv_any sched W = some (source, m, W1)) :
    W1.solutions = W.solutions ∧ W1.num = W.num ∧
      W1.trace = W.trace ++ [Event.recv true source m.tag m.data W.solutions] := by
  unfold MPI_Recv_any at h
  split at h
  · cases h
  · simp only at h
    split at h
    · cases h
    · rename_i m1 W2 heq
      simp only [Option.some.injEq, Prod.mk.injEq] at h
      obtain ⟨rfl, rfl, rfl⟩ := h
      exact MPI_Recv_frame (W := { W with anys := W.anys + 1 }) heq

theorem MPI_Send_frame {enum : Engine} {dest tag : Nat} {data : List Nat} {W W1 : World}
    (h : MPI_Send enum dest tag data W = some W1) :
    W1.solutions = W.solutions ∧ W1.num = W.num ∧
      W1.trace = W.trace ++ [Event.send dest tag data W.solutions] := by
  unfold MPI_Send at h
  split at h
  · cases h
  · split at h
    · cases h
    · split at h
      · simp only [Option.some.injEq] at h
        subst h
        exact ⟨rfl, rfl, rfl⟩
      · cases h

/-! ## The claims -/

/-- What a callback invocation (`final = false`) or a pass of the drain loop
(`final = true`) that completes has done, from any state whatever: a request
of tag 1 and count `s` is followed by a receive from the same sender into
`s` words, appended before the reply; a request of another tag by the
reply alone. -/
theorem request_frame (enum : Engine) (sched : Nat → Nat) (solution : List Nat)
    (final : Bool) (W W' : World)
    (h : (if final then drain_body enum sched W
          else master_solution_func enum sched solution W) = some W') :
    ∃ source m W1 rest, MPI_Recv_any sched W = some (source, m, W1) ∧
      ((final = false ∧ rest = [Event.send source 0 (solution.take W.num) W'.solutions]) ∨
       (final = true ∧ ∃ a : Msg, rest =
          [Event.send source 2 [pointer] W'.solutions,
           Event.recv false source a.tag a.data W'.solutions])) ∧
      ((m.tag = 1 ∧ ∃ p W2, MPI_Recv false source W1 = some (p, W2) ∧
          W'.solutions = W.solutions ++ recv_buf (m.data.headD 0) p.data ∧
          (recv_buf (m.data.headD 0) p.data).length = m.data.headD 0 ∧
          W'.trace = W.trace ++
            [Event.recv true source 1 m.data W.solutions,
             Event.recv false source p.tag p.data W.solutions] ++ rest) ∨
       (m.tag ≠ 1 ∧ W'.solutions = W.solutions ∧
          W'.trace = W.trace ++ [Event.recv true source m.tag m.data W.solutions] ++ rest)) := by
  cases final with
  | false =>
    simp only [Bool.false_eq_true, if_false] at h
    unfold master_solution_func at h
    split at h
    · cases h
    · rename_i source m W1 hany
      obtain ⟨a1, a2, a3⟩ := MPI_Recv_any_frame hany
      simp only at h
      split at h
      · rename_i htag
        split at h
        · cases h
        · rename_i p W2 hrecv
          obtain ⟨b1, b2, b3⟩ := MPI_Recv_frame hrecv
          obtain ⟨c1, c2, c3⟩ := MPI_Send_frame h
          simp only at c1 c2 c3
          refine ⟨source, m, W1, _, hany, Or.inl ⟨rfl, rfl⟩, Or.inl ⟨htag, p, W2, hrecv, ?_, ?_, ?_⟩⟩
          · rw [c1, b1, a1]
          · exact length_recv_buf _ _
          · rw [c3, b3, a3, c1, b1, a1, b2, a2, htag]
            simp
      · rename_i htag
        obtain ⟨c1, c2, c3⟩ := MPI_Send_frame h
        refine ⟨source, m, W1, _, hany, Or.inl ⟨rfl, rfl⟩, Or.inr ⟨htag, ?_, ?_⟩⟩
        · rw [c1, a1]
        · rw [c3, a3, c1, a1, a2]
  | true =>
    simp only [if_true] at h
    unfold drain_body at h
    split at h
    · cases h
    · rename_i source m W1 hany
      obtain ⟨a1, a2, a3⟩ := MPI_Recv_any_frame hany
      simp only at h
      split at h
      · cases h
      · rename_i W3 h3
        split at h
        · cases h
        · rename_i W4 hsend
          split at h
          · cases h
          · rename_i a W5 hack
            simp only [Option.some.injEq] at h
            subst h
            obtain ⟨c1, c2, c3⟩ := MPI_Send_frame hsend
            obtain ⟨d1, d2, d3⟩ := MPI_Recv_frame hack
            split at h3
            · rename_i htag
              split at h3
              · cases h3
              · rename_i p W2 hrecv
                obtain ⟨b1, b2, b3⟩ := MPI_Recv_frame hrecv
                simp only [Option.some.injEq] at h3
                subst h3
                simp only at c1 c2 c3
                refine ⟨source, m, W1, _, hany, Or.inr ⟨rfl, a, rfl⟩,
                  Or.inl ⟨htag, p, W2, hrecv, ?_, ?_, ?_⟩⟩
                · rw [d1, c1, b1, a1]
                · exact length_recv_buf _ _
                · rw [d3, c3, b3, a3, d1, c1, b1, a1, htag]
                  simp
            · rename_i htag
              simp only [Option.some.injEq] at h3
              subst h3
              refine ⟨source, m, W1, _, hany, Or.inr ⟨rfl, a, rfl⟩, Or.inr ⟨htag, ?_, ?_⟩⟩
              · rw [d1, c1, a1]
              · rw [d3, c3, a3, d1, c1, a1]
                simp

theorem shape_sample_world : Shape 4 1 sample_world := by
  obtain ⟨i, w, hw, hex, heq⟩ := master_solution_func_eq nqueens_by_level (fun _ => 0)
    [1, 0, 0, 0] (shape_bcast 4 1 2) (pending_of_live (shape_bcast 4 1 2) (by decide))
  have h : sample_world = serve nqueens_by_level i w 0 (List.take 4 [1, 0, 0, 0])
      (MPI_Bcast 4 1 2) := by
    simp only [sample_world, heq, Option.getD_some]
  rw [h]
  exact shape_serve nqueens_by_level (shape_bcast 4 1 2) hw hex 0 (by decide) _

/-- C9 (request handling).  From every state of a run between two services
in which an executor is still in its loop (`Shape`, which holds at each
callback invocation and each pass of the drain loop of every run), a
callback invocation (`final = false`) as well as a pass of the drain loop
(`final = true`) completes, and: when the request taken has tag 1 and count
`s`, rank 0 receives from that same sender a payload of exactly `s` values,
its buffer becomes the old buffer followed by these values in order, and
the reply (work, or termination followed by the acknowledgement) is sent
with the buffer already extended; when the request is a first request
(tag 0), nothing more is received before the reply and the buffer is
unchanged. -/
theorem c9_request_handling (enum : Engine) (sched : Nat → Nat) (solution : List Nat)
    (final : Bool) (n k : Nat) (W : World) (hW : Shape n k W) (hl : 0 < W.live) :
    ∃ W' source m W1 rest,
      (if final then drain_body enum sched W
        else master_solution_func enum sched solution W) = some W' ∧
      MPI_Recv_any sched W = some (source, m, W1) ∧
      ((final = false ∧ rest = [Event.send source 0 (solution.take W.num) W'.solutions]) ∨
       (final = true ∧ rest =
          [Event.send source 2 [pointer] W'.solutions,
           Event.recv false source 2 [1] W'.solutions])) ∧
      ((m.tag = 1 ∧ ∃ p W2, MPI_Recv false source W1 = some (p, W2) ∧
          p.data.length = m.data.headD 0 ∧
          W'.solutions = W.solutions ++ p.data ∧
          W'.solutions = W.solutions ++ recv_buf (m.data.headD 0) p.data ∧
          W'.trace = W.trace ++
            [Event.recv true source 1 m.data W.solutions,
             Event.recv false source p.tag p.data W.solutions] ++ rest) ∨
       (m.tag = 0 ∧ W'.solutions = W.solutions ∧
          W'.trace = W.trace ++ [Event.recv true source 0 m.data W.solutions] ++ rest)) := by
  obtain ⟨i, w, m, rest0, hw, hout, hany⟩ := MPI_Recv_any_some sched (pending_of_live hW hl)
  have hi := lt_of_getElem?_some hw
  have hpk := hW.hpark w (mem_of_getElem?_some hw)
  have hex := live_of_out hpk (by simp [hout])
  have hnum := hW.hnum
  cases final with
  | false =>
    have hstep := master_solution_func_at enum sched solution hW hw hout hany
    rw [if_neg Bool.false_ne_true]
    refine ⟨_, i + 1, m, _,
      [Event.send (i + 1) 0 (solution.take W.num) (W.solutions ++ w.inflight)],
      hstep, hany, Or.inl ⟨rfl, by simp [serve]⟩, ?_⟩
    rcases hpk.hlive hex with h0 | h1
    · rw [hout] at h0
      injection h0 with hm hrest
      subst hm hrest
      have hin : w.inflight = [] := by simp [Worker.inflight, hout]
      refine Or.inr ⟨rfl, ?_, ?_⟩
      · simp [serve, hin]
      · simp [serve, hin, request_events, hout, hnum]
    · rw [hout] at h1
      injection h1 with hm hrest
      subst hm hrest
      refine Or.inl ⟨rfl, ⟨1, w.inflight⟩,
        { W with workers := W.workers.set i { w with out := [] }
                 anys := W.anys + 1
                 trace := W.trace ++
                  [Event.recv true (i + 1) 1 [w.inflight.length] W.solutions] ++
                  [Event.recv false (i + 1) 1 w.inflight W.solutions] }, ?_, ?_, ?_, ?_, ?_⟩
      · simp [MPI_Recv, List.getElem?_set, hi]
      · simp
      · simp [serve]
      · simp only [List.headD_cons, recv_buf_self]
        simp [serve]
      · simp [serve, request_events, hout, hnum]
  | true =>
    have hstep := drain_body_at enum sched hW hw hout hany
    rw [if_pos rfl]
    refine ⟨_, i + 1, m, _,
      [Event.send (i + 1) 2 [pointer] (W.solutions ++ w.inflight),
       Event.recv false (i + 1) 2 [1] (W.solutions ++ w.inflight)],
      hstep, hany, Or.inr ⟨rfl, by simp [retire]⟩, ?_⟩
    rcases hpk.hlive hex with h0 | h1
    · rw [hout] at h0
      injection h0 with hm hrest
      subst hm hrest
      have hin : w.inflight = [] := by simp [Worker.inflight, hout]
      refine Or.inr ⟨rfl, ?_, ?_⟩
      · simp [retire, hin]
      · simp [retire, hin, request_events, hout]
    · rw [hout] at h1
      injection h1 with hm hrest
      subst hm hrest
      refine Or.inl ⟨rfl, ⟨1, w.inflight⟩,
        { W with workers := W.workers.set i { w with out := [] }
                 anys := W.anys + 1
                 trace := W.trace ++
                  [Event.recv true (i + 1) 1 [w.inflight.length] W.solutions] ++
                  [Event.recv false (i + 1) 1 w.inflight W.solutions] }, ?_, ?_, ?_, ?_, ?_⟩
      · simp [MPI_Recv, List.getElem?_set, hi]
      · simp
      · simp [retire]
      · simp only [List.headD_cons, recv_buf_self]
        simp [retire]
      · simp [retire, request_events, hout]

/-- C9 at a reachable state, for a callback invocation and for a pass of the
drain loop: in a run with `n = 4`, `k = 1`, `P = 2` the executor has been
handed the placement `(1)`; its repeat request is taken next. -/
theorem c9_request_handling_witness :
    (Shape 4 1 sample_world ∧ 0 < sample_world.live) ∧
    (∃ W' source m W1 rest,
      (if false then drain_body nqueens_by_level (fun _ => 0) sample_world
        else master_solution_func nqueens_by_level (fun _ => 0) [2, 0, 0, 0] sample_world) =
          some W' ∧
      MPI_Recv_any (fun _ => 0) sample_world = some (source, m, W1) ∧
      ((false = false ∧
          rest = [Event.send source 0 (List.take sample_world.num [2, 0, 0, 0]) W'.solutions]) ∨
       (false = true ∧ rest =
          [Event.send source 2 [pointer] W'.solutions,
           Event.recv false source 2 [1] W'.solutions])) ∧
      ((m.tag = 1 ∧ ∃ p W2, MPI_Recv false source W1 = some (p, W2) ∧
          p.data.length = m.data.headD 0 ∧
          W'.solutions = sample_world.solutions ++ p.data ∧
          W'.solutions = sample_world.solutions ++ recv_buf (m.data.headD 0) p.data ∧
          W'.trace = sample_world.trace ++
            [Event.recv true source 1 m.data sample_world.solutions,
             Event.recv false source p.tag p.data sample_world.solutions] ++ rest) ∨
       (m.tag = 0 ∧ W'.solutions = sample_world.solutions ∧
          W'.trace = sample_world.trace ++
            [Event.recv true source 0 m.data sample_world.solutions] ++ rest))) ∧
    (∃ W' source m W1 rest,
      (if true then drain_body nqueens_by_level (fun _ => 0) sample_world
        else master_solution_func nqueens_by_level (fun _ => 0) [2, 0, 0, 0] sample_world) =
          some W' ∧
      MPI_Recv_any (fun _ => 0) sample_world = some (source, m, W1) ∧
      ((true = false ∧
          rest = [Event.send source 0 (List.take sample_world.num [2, 0, 0, 0]) W'.solutions]) ∨
       (true = true ∧ rest =
          [Event.send source 2 [pointer] W'.solutions,
           Event.recv false source 2 [1] W'.solutions])) ∧
      ((m.tag = 1 ∧ ∃ p W2, MPI_Recv false source W1 = some (p, W2) ∧
          p.data.length = m.data.headD 0 ∧
          W'.solutions = sample_world.solutions ++ p.data ∧
          W'.solutions = sample_world.solutions ++ recv_buf (m.data.headD 0) p.data ∧
          W'.trace = sample_world.trace ++
            [Event.recv true source 1 m.data sample_world.solutions,
             Event.recv false source p.tag p.data sample_world.solutions] ++ rest) ∨
       (m.tag = 0 ∧ W'.solutions = sample_world.solutions ∧
          W'.trace = sample_world.trace ++
            [Event.recv true source 0 m.data sample_world.solutions] ++ rest))) :=
  ⟨⟨shape_sample_world, by decide⟩,
    c9_request_handling nqueens_by_level (fun _ => 0) [2, 0, 0, 0] false 4 1 sample_world
      shape_sample_world (by decide),
    c9_request_handling nqueens_by_level (fun _ => 0) [2, 0, 0, 0] true 4 1 sample_world
      shape_sample_world (by decide)⟩

/-- The two services of the sample state evaluated: the callback and the
drain pass both take the repeat request and append its payload. -/
theorem sample_services :
    (master_solution_func nqueens_by_level (fun _ => 0) [2, 0, 0, 0] sample_world).map
        World.solutions = some [1, 3, 0, 2] ∧
    (drain_body nqueens_by_level (fun _ => 0) sample_world).map World.solutions =
        some [1, 3, 0, 2] ∧
    sample_world.solutions = [] := by
  decide

theorem master_main_of_run {enum : Engine} {sched : Nat → Nat} {n k P : Nat} {W : World}
    (h : master_run enum sched n k P = some W) :
    master_main enum sched n k P = some W.solutions := by
  simp [master_main, h]

/-- C4 (termination).  With at least one executor, whatever the engine and
the order of service: the run completes (no receive of rank 0 stays
unmatched and every send finds its destination in the matching receive),
`master_main` returns, every executor has left its loop having received
exactly one termination message (tag 2), none of its messages is left
unreceived, and rank 0 has taken one acknowledgement from each executor. -/
theorem c4_termination (enum : Engine) (sched : Nat → Nat) (n k P : Nat) (hP : 2 ≤ P) :
    ∃ W, master_run enum sched n k P = some W ∧
      master_main enum sched n k P = some W.solutions ∧
      W.workers.length = P - 1 ∧
      (∀ w ∈ W.workers, w.exited = true ∧ w.out = [] ∧ (w.got.map Msg.tag).count 2 = 1) ∧
      ((skeleton W.trace).filterMap Act.acked).Perm (List.range' 1 (P - 1)) := by
  obtain ⟨W1, W2, hrun, hd, hdr, hS1, hL1, hS2, hL2⟩ := run_exists enum sched n k P hP
  obtain ⟨W, reqs, srcs, hrun', hlen, hrng, hperm, hsk⟩ := skeleton_run enum sched n k P hP
  rw [hrun] at hrun'
  cases hrun'
  refine ⟨W2, hrun, master_main_of_run hrun, ?_, ?_, ?_⟩
  · rw [hdr.workers_count, hd.workers_length, workers_bcast]
  · intro w hw
    have hex := all_exited_of_live hL2 w hw
    have hpk := hS2.hpark w hw
    refine ⟨hex, hpk.hdone hex, ?_⟩
    have := hpk.hgot
    rw [hex] at this
    simpa using this
  · rw [hsk, List.filterMap_append, acked_dispatch_acts, acked_drain_acts, List.nil_append]
    exact hperm

/-- C4 on a run with four processes. -/
theorem c4_termination_witness :
    2 ≤ 4 ∧ ∃ W, master_run nqueens_by_level (fun i => i) 5 2 4 = some W ∧
      master_main nqueens_by_level (fun i => i) 5 2 4 = some W.solutions ∧
      W.workers.length = 4 - 1 ∧
      (∀ w ∈ W.workers, w.exited = true ∧ w.out = [] ∧ (w.got.map Msg.tag).count 2 = 1) ∧
      ((skeleton W.trace).filterMap Act.acked).Perm (List.range' 1 (4 - 1)) :=
  ⟨by decide, c4_termination nqueens_by_level (fun i => i) 5 2 4 (by decide)⟩

theorem mem_dispatch_acts (reqs : List Nat) (ys : List (List Nat)) :
    ∀ a ∈ dispatch_acts reqs ys, ∃ s d, a = Act.req s ∨ a = Act.reply s 0 d := by
  induction reqs generalizing ys with
  | nil =>
    intro a ha
    simp [dispatch_acts] at ha
  | cons s ss ih =>
    cases ys with
    | nil =>
      intro a ha
      simp [dispatch_acts] at ha
    | cons y ys =>
      intro a ha
      simp only [dispatch_acts, List.mem_cons] at ha
      rcases ha with h | h | h
      · exact ⟨s, [], Or.inl h⟩
      · exact ⟨s, y, Or.inr h⟩
      · exact ih ys a h

theorem tested_drain_acts (l : List Nat) :
    (drain_acts l).filterMap Act.tested = (List.range (l.length + 1)).reverse.map Int.ofNat := by
  induction l with
  | nil => rfl
  | cons s ss ih =>
    simp only [drain_acts, List.length_cons]
    rw [List.range_succ (n := ss.length + 1)]
    simp [Act.tested, ih]

theorem terminated_drain_acts (l : List Nat) :
    (drain_acts l).filterMap Act.terminated = l := by
  induction l with
  | nil => simp [drain_acts, Act.terminated]
  | cons s ss ih => simp [drain_acts, Act.terminated, ih]

/-- C10 (liveness countdown).  The trace of rank 0 ends with the drain loop:
the counter is `P - 1` at the first test and one less at each following
test, every pass takes one request, sends one termination message (tag 2)
to the requester and takes one acknowledgement from it, the loop is left
at the test that finds zero (never a negative value), after exactly `P - 1`
passes, and the ranks served are the executors `1..P-1`, each once.  Before
the loop there are only requests and work replies. -/
theorem c10_liveness_countdown (enum : Engine) (sched : Nat → Nat) (n k P : Nat) (hP : 2 ≤ P) :
    ∃ W pre srcs, master_run enum sched n k P = some W ∧
      skeleton W.trace = pre ++ drain_acts srcs ∧
      (∀ a ∈ pre, ∃ s d, a = Act.req s ∨ a = Act.reply s 0 d) ∧
      srcs.Perm (List.range' 1 (P - 1)) ∧ srcs.length = P - 1 ∧ srcs.Nodup ∧
      (drain_acts srcs).filterMap Act.tested = (List.range P).reverse.map Int.ofNat ∧
      (drain_acts srcs).filterMap Act.terminated = srcs ∧
      (drain_acts srcs).filterMap Act.acked = srcs := by
  obtain ⟨W, reqs, srcs, hrun, hlen, hrng, hperm, hsk⟩ := skeleton_run enum sched n k P hP
  have hl : srcs.length = P - 1 := by rw [hperm.length_eq, List.length_range']
  refine ⟨W, _, srcs, hrun, hsk, ?_, hperm, hl, ?_, ?_, ?_, acked_drain_acts srcs⟩
  · exact fun a ha => mem_dispatch_acts _ _ a ha
  · exact hperm.nodup_iff.mpr (List.nodup_range' 1 (P - 1))
  · rw [tested_drain_acts, hl]
    have e : P - 1 + 1 = P := by omega
    rw [e]
  · exact terminated_drain_acts srcs

/-- C10 on a run with four processes. -/
theorem c10_liveness_countdown_witness :
    2 ≤ 4 ∧ ∃ W pre srcs, master_run nqueens_by_level (fun i => 2 * i) 4 1 4 = some W ∧
      skeleton W.trace = pre ++ drain_acts srcs ∧
      (∀ a ∈ pre, ∃ s d, a = Act.req s ∨ a = Act.reply s 0 d) ∧
      srcs.Perm (List.range' 1 (4 - 1)) ∧ srcs.length = 4 - 1 ∧ srcs.Nodup ∧
      (drain_acts srcs).filterMap Act.tested = (List.range 4).reverse.map Int.ofNat ∧
      (drain_acts srcs).filterMap Act.terminated = srcs ∧
      (drain_acts srcs).filterMap Act.acked = srcs :=
  ⟨by decide, c10_liveness_countdown nqueens_by_level (fun i => 2 * i) 4 1 4 (by decide)⟩

/-- C3 (exactly-once dispatch).  With an engine that yields vectors of the
board size: the acts of rank 0 up to the drain loop are, for the placements
`y` the root enumeration yields, in order, one request taken from some
executor `s` immediately followed by one work message (tag 0) carrying `y` to
that same `s`; the work messages of the whole trace are exactly the
placements yielded, in order; what follows (the drain loop, which starts
with its first test) contains no work message. -/
theorem c3_exactly_once_dispatch (enum : Engine) (hsz : Sized enum) (sched : Nat → Nat)
    (n k P : Nat) (hP : 2 ≤ P) :
    ∃ W reqs srcs, master_run enum sched n k P = some W ∧
      reqs.length = (enum (List.replicate n 0) 0 k).length ∧
      (∀ s ∈ reqs, 1 ≤ s ∧ s ≤ P - 1) ∧
      skeleton W.trace =
        dispatch_acts reqs (enum (List.replicate n 0) 0 k) ++ drain_acts srcs ∧
      (skeleton W.trace).filterMap Act.work = enum (List.replicate n 0) 0 k ∧
      (dispatch_acts reqs (enum (List.replicate n 0) 0 k)).filterMap Act.work =
        enum (List.replicate n 0) 0 k ∧
      (drain_acts srcs).filterMap Act.work = [] := by
  obtain ⟨W, reqs, srcs, hrun, hlen, hrng, -, hsk⟩ := skeleton_run enum sched n k P hP
  rw [map_take_of_sized hsz] at hsk
  refine ⟨W, reqs, srcs, hrun, hlen, hrng, hsk, ?_, work_dispatch_acts _ _ hlen,
    work_drain_acts _⟩
  rw [hsk, List.filterMap_append, work_dispatch_acts _ _ hlen, work_drain_acts, List.append_nil]

/-- C3 on a run with three processes and split depth 2 on the 4-board. -/
theorem c3_exactly_once_dispatch_witness :
    (Sized nqueens_by_level ∧ 2 ≤ 3) ∧
    ∃ W reqs srcs, master_run nqueens_by_level (fun i => i) 4 2 3 = some W ∧
      reqs.length = (nqueens_by_level (List.replicate 4 0) 0 2).length ∧
      (∀ s ∈ reqs, 1 ≤ s ∧ s ≤ 3 - 1) ∧
      skeleton W.trace =
        dispatch_acts reqs (nqueens_by_level (List.replicate 4 0) 0 2) ++ drain_acts srcs ∧
      (skeleton W.trace).filterMap Act.work = nqueens_by_level (List.replicate 4 0) 0 2 ∧
      (dispatch_acts reqs (nqueens_by_level (List.replicate 4 0) 0 2)).filterMap Act.work =
        nqueens_by_level (List.replicate 4 0) 0 2 ∧
      (drain_acts srcs).filterMap Act.work = [] :=
  ⟨⟨sized_nqueens_by_level, by decide⟩,
    c3_exactly_once_dispatch nqueens_by_level sized_nqueens_by_level (fun i => i) 4 2 3
      (by decide)⟩

/-- C2 (exactly-once delivery).  With an engine that yields vectors of the
board size `n ≥ 1`: at the end of the run the blocks of `n` of the buffer
`master_main` returns are, as a multiset, the vectors the callbacks of all
executors were called with; the buffer consists of these blocks only, and no
executor keeps a value in its local buffer or in an unreceived message. -/
theorem c2_exactly_once_delivery (enum : Engine) (hsz : Sized enum) (sched : Nat → Nat)
    (n k P : Nat) (hn : 1 ≤ n) (hP : 2 ≤ P) :
    ∃ W, master_run enum sched n k P = some W ∧
      master_main enum sched n k P = some W.solutions ∧
      (↑(blocks n W.solutions) : Multiset (List Nat)) =
        (W.workers.map fun w => (↑w.found : Multiset (List Nat))).sum ∧
      (blocks n W.solutions).flatten = W.solutions ∧
      ∀ w ∈ W.workers, w.solutions = [] ∧ w.out = [] := by
  obtain ⟨W, hrun, hS, hL, hA, hb, -⟩ := acct_run enum hsz sched n k P hn hP
  refine ⟨W, hrun, master_main_of_run hrun, hb, hA.hbuf.flatten_blocks hn, ?_⟩
  intro w hw
  exact ⟨(hS.hpark w hw).hsols, (hS.hpark w hw).hdone (all_exited_of_live hL w hw)⟩

/-- C2 on the 6-board with four processes. -/
theorem c2_exactly_once_delivery_witness :
    (Sized nqueens_by_level ∧ 1 ≤ 6 ∧ 2 ≤ 4) ∧
    ∃ W, master_run nqueens_by_level (fun i => i * i + 1) 6 2 4 = some W ∧
      master_main nqueens_by_level (fun i => i * i + 1) 6 2 4 = some W.solutions ∧
      (↑(blocks 6 W.solutions) : Multiset (List Nat)) =
        (W.workers.map fun w => (↑w.found : Multiset (List Nat))).sum ∧
      (blocks 6 W.solutions).flatten = W.solutions ∧
      ∀ w ∈ W.workers, w.solutions = [] ∧ w.out = [] :=
  ⟨⟨sized_nqueens_by_level, by decide, by decide⟩,
    c2_exactly_once_delivery nqueens_by_level sized_nqueens_by_level (fun i => i * i + 1) 6 2 4
      (by decide) (by decide)⟩

/-- C5 (idempotent flush).  A repeat request of `worker_main` (any state with
`first = false`) sends the count `solutions.size()`, then the whole contents
of `solutions`, and leaves `solutions` empty; in a complete run the
concatenation of the payloads an executor has sent equals the concatenation
of the vectors its callback was called with, and its buffer is empty at the
end. -/
theorem c5_idempotent_flush (enum : Engine) (sched : Nat → Nat) (n k P : Nat) (hP : 2 ≤ P) :
    (∀ w : Worker, w.first = false →
      (worker_request w).solutions = [] ∧
      (worker_request w).out = w.out ++ [⟨1, [w.solutions.length]⟩, ⟨1, w.solutions⟩] ∧
      (worker_request w).flushed = w.flushed ++ [w.solutions] ∧
      (worker_request w).found = w.found) ∧
    ∃ W, master_run enum sched n k P = some W ∧
      ∀ w ∈ W.workers, w.flushed.flatten = w.found.flatten ∧ w.solutions = [] := by
  constructor
  · intro w hw
    simp [worker_request, hw]
  · obtain ⟨W1, W2, hrun, -, -, -, -, hS2, -⟩ := run_exists enum sched n k P hP
    exact ⟨W2, hrun, fun w hw => ⟨(hS2.hpark w hw).hflush, (hS2.hpark w hw).hsols⟩⟩

/-- C5 on a run with three processes. -/
theorem c5_idempotent_flush_witness :
    2 ≤ 3 ∧
    ((∀ w : Worker, w.first = false →
      (worker_request w).solutions = [] ∧
      (worker_request w).out = w.out ++ [⟨1, [w.solutions.length]⟩, ⟨1, w.solutions⟩] ∧
      (worker_request w).flushed = w.flushed ++ [w.solutions] ∧
      (worker_request w).found = w.found) ∧
    ∃ W, master_run nqueens_by_level (fun i => i) 5 1 3 = some W ∧
      ∀ w ∈ W.workers, w.flushed.flatten = w.found.flatten ∧ w.solutions = []) :=
  ⟨by decide, c5_idempotent_flush nqueens_by_level (fun i => i) 5 1 3 (by decide)⟩

/-- C6 (final output shape).  With an engine that yields vectors of the board
size `n ≥ 1`: the buffer `master_main` returns, and rank 0's buffer at every
receive and every reply of the run, has a length that is a multiple of `n`,
is the concatenation of its blocks of `n`, and each block is, whole, a vector
some executor's callback was called with. -/
theorem c6_output_shape (enum : Engine) (hsz : Sized enum) (sched : Nat → Nat)
    (n k P : Nat) (hn : 1 ≤ n) (hP : 2 ≤ P) :
    ∃ W, master_run enum sched n k P = some W ∧
      master_main enum sched n k P = some W.solutions ∧
      ∀ buf, (buf = W.solutions ∨ ∃ e ∈ W.trace, e.buf = buf) →
        n ∣ buf.length ∧ (blocks n buf).flatten = buf ∧
          ∀ b ∈ blocks n buf, b.length = n ∧ ∃ w ∈ W.workers, b ∈ w.found := by
  obtain ⟨W, hrun, hS, hL, hA, hb, -⟩ := acct_run enum hsz sched n k P hn hP
  refine ⟨W, hrun, master_main_of_run hrun, ?_⟩
  have hfin : ∀ b ∈ blocks n W.solutions, ∃ w ∈ W.workers, b ∈ w.found := by
    intro b hb'
    have : b ∈ (↑(blocks n W.solutions) : Multiset (List Nat)) := Multiset.mem_coe.mpr hb'
    rw [hb] at this
    obtain ⟨w, hw, hbw⟩ := mem_over.mp this
    exact ⟨w, hw, Multiset.mem_coe.mp hbw⟩
  intro buf hbuf
  rcases hbuf with rfl | ⟨e, he, rfl⟩
  · exact ⟨hA.hbuf.dvd, hA.hbuf.flatten_blocks hn,
      fun b hb' => ⟨hA.hbuf.blocks_length hn b hb', hfin b hb'⟩⟩
  · obtain ⟨hc, hsub⟩ := hA.hsnap e he
    exact ⟨hc.dvd, hc.flatten_blocks hn,
      fun b hb' => ⟨hc.blocks_length hn b hb', hfin b (hsub b hb')⟩⟩

/-- C6 on the 5-board with three processes. -/
theorem c6_output_shape_witness :
    (Sized nqueens_by_level ∧ 1 ≤ 5 ∧ 2 ≤ 3) ∧
    ∃ W, master_run nqueens_by_level (fun i => i + 1) 5 2 3 = some W ∧
      master_main nqueens_by_level (fun i => i + 1) 5 2 3 = some W.solutions ∧
      ∀ buf, (buf = W.solutions ∨ ∃ e ∈ W.trace, e.buf = buf) →
        5 ∣ buf.length ∧ (blocks 5 buf).flatten = buf ∧
          ∀ b ∈ blocks 5 buf, b.length = 5 ∧ ∃ w ∈ W.workers, b ∈ w.found :=
  ⟨⟨sized_nqueens_by_level, by decide, by decide⟩,
    c6_output_shape nqueens_by_level sized_nqueens_by_level (fun i => i + 1) 5 2 3
      (by decide) (by decide)⟩

/-- The blocks of the buffer a complete run returns, against the sequential
enumeration. -/
theorem blocks_run (sched : Nat → Nat) (n k P : Nat) (hn : 1 ≤ n) (hk : k ≤ n) (hP : 2 ≤ P) :
    ∃ buf, master_main nqueens_by_level sched n k P = some buf ∧
      (blocks n buf).Perm (nqueens_by_level (List.replicate n 0) 0 n) ∧
      (blocks n buf).flatten = buf := by
  obtain ⟨W, hrun, hS, hL, hA, hb, hf⟩ :=
    acct_run nqueens_by_level sized_nqueens_by_level sched n k P hn hP
  refine ⟨W.solutions, master_main_of_run hrun, ?_, hA.hbuf.flatten_blocks hn⟩
  rw [hf, nqueens_split n k hk] at hb
  exact Multiset.coe_eq_coe.mp hb

/-- C1 (completeness).  For every board size `n ≥ 1`, split depth `k ≤ n`,
process count `P ≥ 2` and order of service, `master_main` returns a buffer
which is the concatenation of its blocks of `n`, and these blocks are a
rearrangement of the solutions `nqueens_by_level(pos, 0, n)` enumerates in a
single process, a list without repetition that depends neither on `k` nor on
`P`. -/
theorem c1_completeness (sched : Nat → Nat) (n k P : Nat) (hn : 1 ≤ n) (hk : k ≤ n)
    (hP : 2 ≤ P) :
    ∃ buf, master_main nqueens_by_level sched n k P = some buf ∧
      (blocks n buf).Perm (nqueens_by_level (List.replicate n 0) 0 n) ∧
      (nqueens_by_level (List.replicate n 0) 0 n).Nodup ∧
      (blocks n buf).Nodup ∧
      (blocks n buf).flatten = buf := by
  obtain ⟨buf, h1, h2, h3⟩ := blocks_run sched n k P hn hk hP
  exact ⟨buf, h1, h2, nqueens_nodup n, h2.nodup_iff.mpr (nqueens_nodup n), h3⟩

/-- C1 on the 6-board split at depth 3 among four processes. -/
theorem c1_completeness_witness :
    (1 ≤ 6 ∧ 3 ≤ 6 ∧ 2 ≤ 4) ∧
    ∃ buf, master_main nqueens_by_level (fun i => 3 * i + 1) 6 3 4 = some buf ∧
      (blocks 6 buf).Perm (nqueens_by_level (List.replicate 6 0) 0 6) ∧
      (nqueens_by_level (List.replicate 6 0) 0 6).Nodup ∧
      (blocks 6 buf).Nodup ∧
      (blocks 6 buf).flatten = buf :=
  ⟨by decide, c1_completeness (fun i => 3 * i + 1) 6 3 4 (by decide) (by decide) (by decide)⟩

/-- A complete run evaluated: the 4-board split at depth 2 among two
executors served in turn. -/
theorem run_four_split :
    master_main nqueens_by_level (fun i => i) 4 2 3 = some [1, 3, 0, 2, 2, 0, 3, 1] := by
  decide

/-- Without an executor the first callback waits for a request forever. -/
theorem run_alone : master_main nqueens_by_level (fun i => i) 4 2 1 = none := by
  decide

theorem nqueens_four :
    nqueens_by_level (List.replicate 4 0) 0 4 = [[1, 3, 0, 2], [2, 0, 3, 1]] := by
  decide

theorem nqueens_two : nqueens_by_level (List.replicate 2 0) 0 2 = [] := by
  decide

theorem nqueens_three : nqueens_by_level (List.replicate 3 0) 0 3 = [] := by
  decide

/-- C7 (scenario A).  For `n = 4`, `k = 0`, `P = 2`, whatever the oracle,
`master_main` returns a buffer of length 8 whose blocks of 4 are `(1,3,0,2)`
and `(2,0,3,1)`, each once, in some order. -/
theorem c7_scenario_a (sched : Nat → Nat) :
    ∃ buf, master_main nqueens_by_level sched 4 0 2 = some buf ∧
      buf.length = 8 ∧
      (blocks 4 buf).Perm [[1, 3, 0, 2], [2, 0, 3, 1]] := by
  obtain ⟨buf, h1, h2, h3⟩ := blocks_run sched 4 0 2 (by decide) (by decide) (by decide)
  rw [nqueens_four] at h2
  refine ⟨buf, h1, ?_, h2⟩
  rw [← h3]
  have hl : (List.map List.length (blocks 4 buf)).Perm
      (List.map List.length [[1, 3, 0, 2], [2, 0, 3, 1]]) := h2.map _
  rw [List.length_flatten, hl.sum_eq]
  rfl

/-- C8 (scenario C).  For `n = 2` and for `n = 3`, any split depth `k ≤ n`,
any process count `P ≥ 2` and any order of service, the run completes and
`master_main` returns the empty buffer; for `n = 3` the root enumeration
does hand out work at depths 1 and 2 (three and two placements). -/
theorem c8_scenario_c (sched : Nat → Nat) (n k P : Nat) (hn : n = 2 ∨ n = 3) (hk : k ≤ n)
    (hP : 2 ≤ P) :
    master_main nqueens_by_level sched n k P = some [] ∧
      (nqueens_by_level (List.replicate 3 0) 0 1).length = 3 ∧
      (nqueens_by_level (List.replicate 3 0) 0 2).length = 2 := by
  refine ⟨?_, by decide, by decide⟩
  obtain ⟨buf, h1, h2, h3⟩ := blocks_run sched n k P (by omega) hk hP
  have hnil : nqueens_by_level (List.replicate n 0) 0 n = [] := by
    rcases hn with rfl | rfl
    · exact nqueens_two
    · exact nqueens_three
  rw [hnil, List.perm_nil] at h2
  rw [h2] at h3
  rw [h1, ← h3]
  rfl

/-- C8 on the 3-board split at depth 2 among three processes. -/
theorem c8_scenario_c_witness :
    ((3 = 2 ∨ 3 = 3) ∧ 2 ≤ 3 ∧ 2 ≤ 3) ∧
    (master_main nqueens_by_level (fun i => i) 3 2 3 = some [] ∧
      (nqueens_by_level (List.replicate 3 0) 0 1).length = 3 ∧
      (nqueens_by_level (List.replicate 3 0) 0 2).length = 2) :=
  ⟨by decide, c8_scenario_c (fun i => i) 3 2 3 (by decide) (by decide) (by decide)⟩

end MpiNQueens
